import Mathlib

set_option autoImplicit false

/-!
Verification of two algorithmic cores of the monosat repository:

* `src/dgl/EdmondsKarpDynamic.h` — incremental (dynamic) Edmonds-Karp
  maximum flow with edge enable/disable repair (namespace `EKD`).
* `src/Cover.h` — locally minimal satisfying cover extraction
  (namespace `CoverM`).

The embeddings below translate the C++ sources statement by statement.
Machine integers are modelled as `Int` (the `Weight` template parameter is
instantiated with an exact integer type; no overflow occurs in any of the
concrete scenarios considered).  Debug-only `assert` statements are
modelled as no-ops, matching release (`NDEBUG`) semantics.  The unbounded
`while (true)` augmentation loops of the source terminate because every
iteration moves at least one unit of integer flow; the embeddings make
this explicit with a fuel argument that is always chosen large enough
(total capacity plus slack), so that the fuel never runs out on inputs
where the source terminates.
-/

namespace EKD

/-- Weights are exact integers, as in the repository's instantiations. -/
abbrev Weight := Int

/-- The INF constant from the constructor initialisation list (0xF0F0F0). -/
def INF : Weight := 0xF0F0F0

/-- One record of `g.all_edges`: endpoints of an edge; the id is the index. -/
structure EdgeRec where
  src : Nat
  dst : Nat
  deriving DecidableEq, Repr

/-- Collaborator view of `DynamicGraph` (interface listed in the spec):
node count, edge records, per-edge enabled state, mutation history and the
monotone version counters read by the flow engine. -/
structure DynGraph where
  numNodes : Nat
  edgesArr : List EdgeRec
  enabledArr : List Bool
  hist : List (Nat × Bool)
  modifications : Int
  deletions : Int
  additions : Int
  historyclears : Int
  changedFlag : Bool
  deriving DecidableEq, Repr

/-- Number of edges (`g.edges()`). -/
def DynGraph.numEdges (g : DynGraph) : Nat := g.edgesArr.length

/-- `g.edgeEnabled(id)` — enabled ids out of range read as false. -/
def DynGraph.edgeEnabled (g : DynGraph) (id : Nat) : Bool :=
  g.enabledArr.getD id false

/-- `g.isEdge(id)`. -/
def DynGraph.isEdge (g : DynGraph) (id : Nat) : Bool :=
  decide (id < g.edgesArr.length)

/-- Forward adjacency `g.incident(u,·)` in edge-id order: pairs of
(head node, edge id), matching adjacency lists built by edge insertion. -/
def DynGraph.incidentList (g : DynGraph) (u : Nat) : List (Nat × Nat) :=
  g.edgesArr.enum.filterMap fun p =>
    if p.2.src = u then some (p.2.dst, p.1) else none

/-- Reverse adjacency `g.incoming(u,·)` in edge-id order: pairs of
(tail node, edge id). -/
def DynGraph.incomingList (g : DynGraph) (u : Nat) : List (Nat × Nat) :=
  g.edgesArr.enum.filterMap fun p =>
    if p.2.dst = u then some (p.2.src, p.1) else none

/-- The `LocalEdge` predecessor record; `fr` holds a node index or one of
the sentinels −1 (unvisited) and −2 (search source). -/
structure LocalEdge where
  fr : Int
  id : Int
  backward : Bool
  deriving DecidableEq, Repr

instance : Inhabited LocalEdge := ⟨⟨-1, -1, false⟩⟩

/-- Persistent state of an `EdmondsKarpDynamic` instance: the cached flow
value, the per-edge flow map F, the version stamps, and the reusable
`prev`/`M`/`edge_enabled` buffers. -/
structure EKState where
  f : Weight
  F : List Weight
  curflow : Weight
  last_modification : Int
  last_deletion : Int
  last_addition : Int
  history_qhead : Nat
  last_history_clear : Int
  prev : List LocalEdge
  M : List Weight
  edge_enabled : List Bool
  deriving DecidableEq, Repr

/-- Constructor state of `EdmondsKarpDynamic`. -/
def initState : EKState :=
  { f := 0, F := [], curflow := 0, last_modification := -1,
    last_deletion := -1, last_addition := -1, history_qhead := 0,
    last_history_clear := -1, prev := [], M := [], edge_enabled := [] }

/-- Working state of the plain `BreadthFirstSearch`: predecessor array,
bottleneck array, FIFO queue and the `found` flag. -/
structure BfsSt where
  prev : List LocalEdge
  M : List Weight
  Q : List Nat
  found : Bool
  deriving Repr

/-- Inner loop over `g.nIncident(u)` of the plain BFS (lines 87-111 of
EdmondsKarpDynamic.h): relax forward residual edges, breaking out of this
loop when the sink is reached. -/
def bfsFwd (cap F : List Weight) (een : List Bool) (t u : Nat) :
    List (Nat × Nat) → BfsSt → BfsSt
  | [], st => st
  | (v, id) :: rest, st =>
    if !(een.getD id false) then bfsFwd cap F een t u rest st
    else
      let c := cap.getD id 0
      let fe := F.getD id 0
      if c - fe > 0 ∧ (st.prev.getD v default).fr = -1 then
        let st' : BfsSt :=
          { st with prev := st.prev.set v ⟨(u : Int), (id : Int), false⟩,
                    M := st.M.set v (min (st.M.getD u 0) (c - fe)) }
        if v ≠ t then bfsFwd cap F een t u rest { st' with Q := st'.Q ++ [v] }
        else { st' with found := true }
      else bfsFwd cap F een t u rest st

/-- Inner loop over `g.nIncoming(u)` of the plain BFS (lines 112-137):
relax backward residual edges (residual capacity is the current flow). -/
def bfsBwd (F : List Weight) (een : List Bool) (t u : Nat) :
    List (Nat × Nat) → BfsSt → BfsSt
  | [], st => st
  | (v, id) :: rest, st =>
    if !(een.getD id false) then bfsBwd F een t u rest st
    else
      let c := F.getD id 0
      if c - 0 > 0 ∧ (st.prev.getD v default).fr = -1 then
        let st' : BfsSt :=
          { st with prev := st.prev.set v ⟨(u : Int), (id : Int), true⟩,
                    M := st.M.set v (min (st.M.getD u 0) (c - 0)) }
        if v ≠ t then bfsBwd F een t u rest { st' with Q := st'.Q ++ [v] }
        else { st' with found := true }
      else bfsBwd F een t u rest st

/-- Queue loop of the plain BFS (`for j = 0; j < Q.size(); j++`): the queue
grows while it is scanned, and the loop keeps running after the sink has
been found, exactly as in the source.  The fuel bounds the number of queue
entries processed; every node is enqueued at most once, so a fuel of
`2*n + 4` can never be exhausted. -/
def bfsLoop (g : DynGraph) (cap F : List Weight) (een : List Bool)
    (t : Nat) : Nat → Nat → BfsSt → BfsSt
  | 0, _, st => st
  | fuel + 1, j, st =>
    match st.Q.get? j with
    | none => st
    | some u =>
      let st1 := bfsFwd cap F een t u (g.incidentList u) st
      let st2 := bfsBwd F een t u (g.incomingList u) st1
      bfsLoop g cap F een t fuel (j + 1) st2

/-- `BreadthFirstSearch(s, t)` (lines 75-146).  Resets only the `from`
fields of `prev`, marks the source with −2, runs the queue loop and
returns the updated buffers together with `M[t]` when the sink was
reached (0 otherwise).  `M[s]` is left untouched: the source's
save/restore of `M[s]` through a reference is a self-assignment. -/
def breadthFirstSearch (g : DynGraph) (cap F : List Weight)
    (een : List Bool) (prev : List LocalEdge) (M : List Weight)
    (s t : Nat) : List LocalEdge × List Weight × Weight :=
  let prev0 := prev.map fun e => { e with fr := -1 }
  let prev1 := prev0.set s { prev0.getD s default with fr := -2 }
  let st0 : BfsSt := { prev := prev1, M := M, Q := [s], found := false }
  let st := bfsLoop g cap F een t (2 * g.numNodes + 4) 0 st0
  (st.prev, st.M, if st.found then st.M.getD t 0 else 0)

/-- Working state of the shortcut-aware BFS; `res` is set when the search
has returned (the source returns from the middle of the loop). -/
structure BfsScSt where
  prev : List LocalEdge
  M : List Weight
  Q : List Nat
  res : Option Weight
  deriving Repr

/-- Forward relaxation loop of the shortcut BFS (lines 483-505); returns
`M[t]` immediately when the sink is reached. -/
def bfsScFwd (cap F : List Weight) (een : List Bool) (t u : Nat) :
    List (Nat × Nat) → BfsScSt → BfsScSt
  | [], st => st
  | (v, id) :: rest, st =>
    if st.res.isSome then st
    else if !(een.getD id false) then bfsScFwd cap F een t u rest st
    else
      let c := cap.getD id 0
      let fe := F.getD id 0
      if c - fe > 0 ∧ (st.prev.getD v default).fr = -1 then
        let st' : BfsScSt :=
          { st with prev := st.prev.set v ⟨(u : Int), (id : Int), false⟩,
                    M := st.M.set v (min (st.M.getD u 0) (c - fe)) }
        if v ≠ t then bfsScFwd cap F een t u rest { st' with Q := st'.Q ++ [v] }
        else { st' with res := some (st'.M.getD t 0) }
      else bfsScFwd cap F een t u rest st

/-- Backward relaxation loop of the shortcut BFS (lines 507-528). -/
def bfsScBwd (F : List Weight) (een : List Bool) (t u : Nat) :
    List (Nat × Nat) → BfsScSt → BfsScSt
  | [], st => st
  | (v, id) :: rest, st =>
    if st.res.isSome then st
    else if !(een.getD id false) then bfsScBwd F een t u rest st
    else
      let c := F.getD id 0
      if c - 0 > 0 ∧ (st.prev.getD v default).fr = -1 then
        let st' : BfsScSt :=
          { st with prev := st.prev.set v ⟨(u : Int), (id : Int), true⟩,
                    M := st.M.set v (min (st.M.getD u 0) (c - 0)) }
        if v ≠ t then bfsScBwd F een t u rest { st' with Q := st'.Q ++ [v] }
        else { st' with res := some (st'.M.getD t 0) }
      else bfsScBwd F een t u rest st

/-- Virtual shortcut arc step of the shortcut BFS (lines 468-481): when the
popped node is `scFrom`, `scTo` is treated as a neighbour across an arc of
capacity `scCap` carrying flow `scFlow`.  The predecessor entry is
written unconditionally (no unvisited check), with edge id −1. -/
def bfsScShort (scFrom scTo : Nat) (scCap scFlow : Weight) (t u : Nat)
    (st : BfsScSt) : BfsScSt :=
  if st.res.isSome then st
  else if u = scFrom then
    let v := scTo
    if scCap - scFlow > 0 then
      let st' : BfsScSt :=
        { st with prev := st.prev.set v ⟨(u : Int), -1, false⟩,
                  M := st.M.set v (min (st.M.getD u 0) (scCap - scFlow)) }
      if v ≠ t then { st' with Q := st'.Q ++ [v] }
      else { st' with res := some (st'.M.getD t 0) }
    else st
  else st

/-- Queue loop of the shortcut BFS (lines 465-530). -/
def bfsScLoop (g : DynGraph) (cap F : List Weight) (een : List Bool)
    (scFrom scTo : Nat) (scCap scFlow : Weight) (t : Nat) :
    Nat → Nat → BfsScSt → BfsScSt
  | 0, _, st => st
  | fuel + 1, j, st =>
    if st.res.isSome then st
    else
      match st.Q.get? j with
      | none => st
      | some u =>
        let st1 := bfsScShort scFrom scTo scCap scFlow t u st
        let st2 := bfsScFwd cap F een t u (g.incidentList u) st1
        let st3 := bfsScBwd F een t u (g.incomingList u) st2
        bfsScLoop g cap F een scFrom scTo scCap scFlow t fuel (j + 1) st3

/-- `BreadthFirstSearch(s, t, shortCircuitFrom, shortCircuitTo,
shortCircuitCapacity, shortCircuitFlow)` (lines 458-534). -/
def breadthFirstSearchSc (g : DynGraph) (cap F : List Weight)
    (een : List Bool) (prev : List LocalEdge) (M : List Weight)
    (s t scFrom scTo : Nat) (scCap scFlow : Weight) :
    List LocalEdge × List Weight × Weight :=
  let prev0 := prev.map fun e => { e with fr := -1 }
  let prev1 := prev0.set s { prev0.getD s default with fr := -2 }
  let st0 : BfsScSt := { prev := prev1, M := M, Q := [s], res := none }
  let st := bfsScLoop g cap F een scFrom scTo scCap scFlow t
    (2 * g.numNodes + 4) 0 st0
  (st.prev, st.M, st.res.getD 0)

/-- Augmenting-path walk of `maxFlow_p(s,t)` and `maxFlow_residual`
(lines 381-395 and 420-445): follow `prev` from the sink back to the
search source, adding `m` on forward steps and subtracting it on backward
steps.  The fuel (number of nodes plus slack) can never run out on a
well-formed predecessor path. -/
def augWalk (prev : List LocalEdge) (s : Nat) (m : Weight) :
    Nat → Nat → List Weight → List Weight
  | 0, _, F => F
  | fuel + 1, v, F =>
    if v = s then F
    else
      let pe := prev.getD v default
      let id := pe.id.toNat
      let F' := if pe.backward then F.set id (F.getD id 0 - m)
                else F.set id (F.getD id 0 + m)
      augWalk prev s m fuel pe.fr.toNat F'

/-- Augmenting-path walk of the shortcut `maxFlow_p` (lines 617-646):
steps whose predecessor edge id is −1 update no flow entry and jump to
`shortCircuitFrom`. -/
def augWalkSc (prev : List LocalEdge) (s scFrom : Nat) (m : Weight) :
    Nat → Nat → List Weight → List Weight
  | 0, _, F => F
  | fuel + 1, v, F =>
    if v = s then F
    else
      let pe := prev.getD v default
      if pe.id ≥ 0 then
        let id := pe.id.toNat
        let F' := if pe.backward then F.set id (F.getD id 0 - m)
                  else F.set id (F.getD id 0 + m)
        augWalkSc prev s scFrom m fuel pe.fr.toNat F'
      else
        augWalkSc prev s scFrom m fuel scFrom F

/-- Fuel large enough for every augmentation loop: each iteration moves at
least one unit of integer flow, so the loop count is bounded by the sum of
all (positive) capacities. -/
def capFuel (cap : List Weight) : Nat :=
  cap.foldl (fun a c => a + c.toNat) 0 + 2

/-- Main loop of `maxFlow_p(s, t)` (lines 410-456): repeated BFS and
augmentation, accumulating into the member `f`, until the BFS finds no
augmenting path. -/
def maxFlowPLoop (g : DynGraph) (cap : List Weight) (een : List Bool)
    (s t : Nat) : Nat → Weight → List Weight → List LocalEdge →
    List Weight → Weight × List Weight × List LocalEdge × List Weight
  | 0, f, F, prev, M => (f, F, prev, M)
  | fuel + 1, f, F, prev, M =>
    let r := breadthFirstSearch g cap F een prev M s t
    let m := r.2.2
    if m = 0 then (f, F, r.1, r.2.1)
    else
      let F' := augWalk r.1 s m (g.numNodes + 2) t F
      maxFlowPLoop g cap een s t fuel (f + m) F' r.1 r.2.1

/-- `maxFlow_p(s, t)` on a given buffer state. -/
def maxFlowP (g : DynGraph) (cap : List Weight) (een : List Bool)
    (s t : Nat) (f : Weight) (F : List Weight) (prev : List LocalEdge)
    (M : List Weight) : Weight × List Weight × List LocalEdge × List Weight :=
  maxFlowPLoop g cap een s t (capFuel cap) f F prev M

/-- Main loop of `maxFlow_residual(s, t, bound)` (lines 368-397): like
`maxFlow_p` but accumulating into a local `new_flow`, clamping the
augmentation amount so the total never exceeds `bound`, and stopping as
soon as the clamped amount is not positive. -/
def maxFlowResidualLoop (g : DynGraph) (cap : List Weight)
    (een : List Bool) (s t : Nat) (bound : Weight) :
    Nat → Weight → List Weight → List LocalEdge → List Weight →
    Weight × List Weight × List LocalEdge × List Weight
  | 0, nf, F, prev, M => (nf, F, prev, M)
  | fuel + 1, nf, F, prev, M =>
    let r := breadthFirstSearch g cap F een prev M s t
    let m0 := r.2.2
    let m := if bound ≥ 0 ∧ nf + m0 > bound then bound - nf else m0
    if m ≤ 0 then (nf, F, r.1, r.2.1)
    else
      let F' := augWalk r.1 s m (g.numNodes + 2) t F
      maxFlowResidualLoop g cap een s t bound fuel (nf + m) F' r.1 r.2.1

/-- `maxFlow_residual(s, t, bound)` (lines 339-408). -/
def maxFlowResidual (g : DynGraph) (cap : List Weight) (een : List Bool)
    (s t : Nat) (bound : Weight) (F : List Weight) (prev : List LocalEdge)
    (M : List Weight) : Weight × List Weight × List LocalEdge × List Weight :=
  maxFlowResidualLoop g cap een s t bound (capFuel cap) 0 F prev M

/-- Main loop of the shortcut `maxFlow_p(s, t, shortCircuitFrom,
shortCircuitTo, bound)` (lines 605-647).  The member `shortCircuitFlow` is
reset to 0 before the loop and never updated afterwards, so the virtual
arc always reports residual `bound`; the clamp against `bound` stops the
loop instead. -/
def maxFlowPScLoop (g : DynGraph) (cap : List Weight) (een : List Bool)
    (s t scFrom scTo : Nat) (bound : Weight) :
    Nat → Weight → List Weight → List LocalEdge → List Weight →
    Weight × List Weight × List LocalEdge × List Weight
  | 0, nf, F, prev, M => (nf, F, prev, M)
  | fuel + 1, nf, F, prev, M =>
    let r := breadthFirstSearchSc g cap F een prev M s t scFrom scTo bound 0
    let m0 := r.2.2
    let m := if bound ≥ 0 ∧ nf + m0 > bound then bound - nf else m0
    if m = 0 then (nf, F, r.1, r.2.1)
    else
      let F' := augWalkSc r.1 s scFrom m (g.numNodes + 2) t F
      maxFlowPScLoop g cap een s t scFrom scTo bound fuel (nf + m) F' r.1 r.2.1

/-- `maxFlow_p(s, t, shortCircuitFrom, shortCircuitTo, bound)`
(lines 570-669). -/
def maxFlowPSc (g : DynGraph) (cap : List Weight) (een : List Bool)
    (s t scFrom scTo : Nat) (bound : Weight) (F : List Weight)
    (prev : List LocalEdge) (M : List Weight) :
    Weight × List Weight × List LocalEdge × List Weight :=
  maxFlowPScLoop g cap een s t scFrom scTo bound (capFuel cap) 0 F prev M

/-- Accumulator of the history-replay loop of `maxFlow` (lines 236-277). -/
structure ReplayAcc where
  F : List Weight
  prev : List LocalEdge
  M : List Weight
  een : List Bool
  addedEdges : Bool
  needsReflow : Bool
  deriving Repr

/-- One iteration of the history-replay loop (lines 239-277).  An addition
of a currently enabled edge just sets the local enabled flag; a deletion
of a currently disabled edge clears it and, if the edge carried flow,
repairs: reorient so the flow is positive from `u` to `v`, recover up to
`fv` by a residual max-flow from `u` to `v`, and if `delta = fv - flow`
units remain, run the shortcut max-flow from `u` to `v` whose virtual arc
connects `s` to `t` with capacity `delta` (the call
`maxFlow_p(u, v, s, t, delta)` at line 271), marking `needsReflow`.
Finally the deleted edge's flow entry is zeroed. -/
def processEvent (g : DynGraph) (cap : List Weight) (s t : Nat)
    (acc : ReplayAcc) (ev : Nat × Bool) : ReplayAcc :=
  let edgeid := ev.1
  if ev.2 ∧ g.edgeEnabled edgeid then
    { acc with een := acc.een.set edgeid true, addedEdges := true }
  else if ¬ev.2 ∧ ¬g.edgeEnabled edgeid then
    let een' := acc.een.set edgeid false
    let fv := acc.F.getD edgeid 0
    if fv = 0 then { acc with een := een' }
    else
      let e := g.edgesArr.getD edgeid ⟨0, 0⟩
      let u := if fv < 0 then e.dst else e.src
      let v := if fv < 0 then e.src else e.dst
      let fv' := if fv < 0 then -fv else fv
      let r := maxFlowResidual g cap een' u v fv' acc.F acc.prev acc.M
      if r.1 = fv' then
        { F := r.2.1.set edgeid 0, prev := r.2.2.1, M := r.2.2.2,
          een := een', addedEdges := acc.addedEdges,
          needsReflow := acc.needsReflow }
      else
        let delta := fv' - r.1
        let r2 := maxFlowPSc g cap een' u v s t delta r.2.1 r.2.2.1 r.2.2.2
        { F := r2.2.1.set edgeid 0, prev := r2.2.2.1, M := r2.2.2.2,
          een := een', addedEdges := acc.addedEdges, needsReflow := true }
  else acc

/-- Recomputation of the cached flow value under `needsReflow`
(lines 280-298): sum the flow over the enabled edges leaving `s`. -/
def reflowSum (g : DynGraph) (een : List Bool) (F : List Weight)
    (s : Nat) : Weight :=
  (g.incidentList s).foldl
    (fun a p => if een.getD p.2 false then a + F.getD p.2 0 else a) 0

/-- `maxFlow(s, t)` (lines 172-334): cache hit when the modification stamp
is unchanged; full reinitialisation and from-scratch Edmonds-Karp when the
engine has never synced, the history was cleared or the graph reports a
structural change; then replay of the pending history events, the
`needsReflow` recount, the extra Edmonds-Karp run when edges were added,
and the version-stamp update. -/
def maxFlow (g : DynGraph) (cap : List Weight) (s t : Nat)
    (st : EKState) : Weight × EKState :=
  if st.last_modification > 0 ∧ g.modifications = st.last_modification then
    (st.curflow, st)
  else
    let init :=
      if st.last_modification ≤ 0 ∨ g.historyclears ≠ st.last_history_clear
          ∨ g.changedFlag then
        let F0 := List.replicate g.numEdges (0 : Weight)
        let prev0 : List LocalEdge :=
          (List.replicate g.numNodes default).set s ⟨-2, -1, false⟩
        let M0 := (List.replicate g.numNodes (0 : Weight)).set s INF
        let een0 := (List.range g.numEdges).map fun i =>
          g.isEdge i && g.edgeEnabled i
        let r := maxFlowP g cap een0 s t 0 F0 prev0 M0
        (r.1, r.2.1, r.2.2.1, r.2.2.2, een0)
      else
        (st.f, st.F, st.prev, st.M, st.edge_enabled)
    let acc0 : ReplayAcc :=
      { F := init.2.1, prev := init.2.2.1, M := init.2.2.2.1,
        een := init.2.2.2.2, addedEdges := false, needsReflow := false }
    let acc := (g.hist.drop st.history_qhead).foldl (processEvent g cap s t) acc0
    let f1 := if acc.needsReflow then reflowSum g acc.een acc.F s else init.1
    let fin :=
      if acc.addedEdges then maxFlowP g cap acc.een s t f1 acc.F acc.prev acc.M
      else (f1, acc.F, acc.prev, acc.M)
    (fin.1,
     { f := fin.1, F := fin.2.1, curflow := fin.1,
       last_modification := g.modifications, last_deletion := g.deletions,
       last_addition := g.additions, history_qhead := g.hist.length,
       last_history_clear := g.historyclears, prev := fin.2.2.1,
       M := fin.2.2.2, edge_enabled := acc.een })

/-- An element of the min-cut output vector (`MaxFlowEdge`). -/
structure MaxFlowEdge where
  u : Nat
  v : Nat
  id : Nat
  deriving DecidableEq, Repr

/-- State of the residual-reachability search of `minCut`. -/
structure CutSt where
  Q : List Nat
  seen : List Bool
  cut : List MaxFlowEdge
  deriving Repr

/-- Forward scan of `minCut`'s reachability loop (lines 720-731): saturated
enabled edges are pushed as potential cut elements, unsaturated ones are
traversed. -/
def cutFwd (g : DynGraph) (cap F : List Weight) (u : Nat) :
    List (Nat × Nat) → CutSt → CutSt
  | [], st => st
  | (v, id) :: rest, st =>
    if !g.edgeEnabled id then cutFwd g cap F u rest st
    else if cap.getD id 0 - F.getD id 0 = 0 then
      cutFwd g cap F u rest { st with cut := st.cut ++ [⟨u, v, id⟩] }
    else if !(st.seen.getD v false) then
      cutFwd g cap F u rest
        { st with Q := st.Q ++ [v], seen := st.seen.set v true }
    else cutFwd g cap F u rest st

/-- Backward scan of `minCut`'s reachability loop (lines 732-743): enabled
edges still carrying flow are traversed backwards. -/
def cutBwd (g : DynGraph) (F : List Weight) (u : Nat) :
    List (Nat × Nat) → CutSt → CutSt
  | [], st => st
  | (v, id) :: rest, st =>
    if !g.edgeEnabled id then cutBwd g F u rest st
    else if F.getD id 0 = 0 then cutBwd g F u rest st
    else if !(st.seen.getD v false) then
      cutBwd g F u rest
        { st with Q := st.Q ++ [v], seen := st.seen.set v true }
    else cutBwd g F u rest st

/-- Queue loop of `minCut`'s residual reachability search (lines 717-744). -/
def cutLoop (g : DynGraph) (cap F : List Weight) :
    Nat → Nat → CutSt → CutSt
  | 0, _, st => st
  | fuel + 1, j, st =>
    match st.Q.get? j with
    | none => st
    | some u =>
      let st1 := cutFwd g cap F u (g.incidentList u) st
      let st2 := cutBwd g F u (g.incomingList u) st1
      cutLoop g cap F fuel (j + 1) st2

/-- `minCut(s, t, cut)` (lines 707-763): runs `maxFlow`, explores the
residual graph from `s`, appends saturated edges to the caller-supplied
`cut` vector (which is never cleared), and finally keeps exactly the
entries whose tail is reachable and whose head is not. -/
def minCut (g : DynGraph) (cap : List Weight) (s t : Nat) (st : EKState)
    (cut0 : List MaxFlowEdge) : Weight × EKState × List MaxFlowEdge :=
  let r := maxFlow g cap s t st
  let seen0 := (List.replicate g.numNodes false).set s true
  let c0 : CutSt := { Q := [s], seen := seen0, cut := cut0 }
  let c := cutLoop g cap r.2.F (g.numNodes + 2) 0 c0
  let kept := c.cut.filter fun e =>
    !(c.seen.getD e.v false) && c.seen.getD e.u false
  (r.1, r.2, kept)

/-- A freshly built collaborator graph: all edges enabled, the history
holding their addition events and the version counters advanced once per
addition, as `DynamicGraph::addEdge` does. -/
def mkGraph (n : Nat) (es : List EdgeRec) : DynGraph :=
  { numNodes := n, edgesArr := es,
    enabledArr := List.replicate es.length true,
    hist := (List.range es.length).map fun i => (i, true),
    modifications := es.length, deletions := 0, additions := es.length,
    historyclears := 0, changedFlag := false }

/-- Caller-side edge disabling: flip the enabled flag, append a deletion
event and advance the version counters, as `DynamicGraph::disableEdge`
does. -/
def disableEdge (g : DynGraph) (e : Nat) : DynGraph :=
  { g with enabledArr := g.enabledArr.set e false,
           hist := g.hist ++ [(e, false)],
           modifications := g.modifications + 1,
           deletions := g.deletions + 1 }

/-- Flow scenario A of the specification: nodes 0..3 and the five edges
0→1 (cap 3), 0→2 (cap 2), 1→2 (cap 1), 1→3 (cap 2), 2→3 (cap 3). -/
def graphA : DynGraph := mkGraph 4 [⟨0, 1⟩, ⟨0, 2⟩, ⟨1, 2⟩, ⟨1, 3⟩, ⟨2, 3⟩]

/-- Capacities of flow scenario A. -/
def capA : List Weight := [3, 2, 1, 2, 3]

/-- Engine state after the first `maxFlow(0,3)` call of scenario A. -/
def stateA1 : EKState := (maxFlow graphA capA 0 3 initState).2

/-- Scenario A after edge 1→3 (id 3) is disabled. -/
def graphA2 : DynGraph := disableEdge graphA 3

/-- Four-node graph witnessing the incremental-repair bug: edges
0→1 (cap 2), 1→3 (cap 1), 1→0 (cap 1), 0→2 (cap 2), 2→3 (cap 2). -/
def graphB : DynGraph := mkGraph 4 [⟨0, 1⟩, ⟨1, 3⟩, ⟨1, 0⟩, ⟨0, 2⟩, ⟨2, 3⟩]

/-- Capacities of the bug-witness graph. -/
def capB : List Weight := [2, 1, 1, 2, 2]

/-- Engine state after the first `maxFlow(0,3)` call on the bug witness. -/
def stateB1 : EKState := (maxFlow graphB capB 0 3 initState).2

/-- Bug-witness graph after edge 1→3 (id 1) is disabled. -/
def graphB2 : DynGraph := disableEdge graphB 1

/-- Engine state after the second (incremental) `maxFlow(0,3)` call on the
bug witness. -/
def stateB2 : EKState := (maxFlow graphB2 capB 0 3 stateB1).2

/-- Variant of `processEvent` following the claim's words, for comparison
with the source: the deletion repair's shortcut-augmented max-flow from
`u` to `v` is given a shortcut arc from `u` to `v` of capacity `delta`
(the source instead passes the global source and sink, see
`maxFlow_p(u, v, s, t, delta)` at line 271). -/
def processEventClaimed (g : DynGraph) (cap : List Weight) (_s _t : Nat)
    (acc : ReplayAcc) (ev : Nat × Bool) : ReplayAcc :=
  let edgeid := ev.1
  if ev.2 ∧ g.edgeEnabled edgeid then
    { acc with een := acc.een.set edgeid true, addedEdges := true }
  else if ¬ev.2 ∧ ¬g.edgeEnabled edgeid then
    let een' := acc.een.set edgeid false
    let fv := acc.F.getD edgeid 0
    if fv = 0 then { acc with een := een' }
    else
      let e := g.edgesArr.getD edgeid ⟨0, 0⟩
      let u := if fv < 0 then e.dst else e.src
      let v := if fv < 0 then e.src else e.dst
      let fv' := if fv < 0 then -fv else fv
      let r := maxFlowResidual g cap een' u v fv' acc.F acc.prev acc.M
      if r.1 = fv' then
        { F := r.2.1.set edgeid 0, prev := r.2.2.1, M := r.2.2.2,
          een := een', addedEdges := acc.addedEdges,
          needsReflow := acc.needsReflow }
      else
        let delta := fv' - r.1
        let r2 := maxFlowPSc g cap een' u v u v delta r.2.1 r.2.2.1 r.2.2.2
        { F := r2.2.1.set edgeid 0, prev := r2.2.2.1, M := r2.2.2.2,
          een := een', addedEdges := acc.addedEdges, needsReflow := true }
  else acc

/-- Top-level `maxFlow` built over `processEventClaimed` instead of
`processEvent`; identical to `maxFlow` otherwise. -/
def maxFlowClaimed (g : DynGraph) (cap : List Weight) (s t : Nat)
    (st : EKState) : Weight × EKState :=
  if st.last_modification > 0 ∧ g.modifications = st.last_modification then
    (st.curflow, st)
  else
    let init :=
      if st.last_modification ≤ 0 ∨ g.historyclears ≠ st.last_history_clear
          ∨ g.changedFlag then
        let F0 := List.replicate g.numEdges (0 : Weight)
        let prev0 : List LocalEdge :=
          (List.replicate g.numNodes default).set s ⟨-2, -1, false⟩
        let M0 := (List.replicate g.numNodes (0 : Weight)).set s INF
        let een0 := (List.range g.numEdges).map fun i =>
          g.isEdge i && g.edgeEnabled i
        let r := maxFlowP g cap een0 s t 0 F0 prev0 M0
        (r.1, r.2.1, r.2.2.1, r.2.2.2, een0)
      else
        (st.f, st.F, st.prev, st.M, st.edge_enabled)
    let acc0 : ReplayAcc :=
      { F := init.2.1, prev := init.2.2.1, M := init.2.2.2.1,
        een := init.2.2.2.2, addedEdges := false, needsReflow := false }
    let acc := (g.hist.drop st.history_qhead).foldl
      (processEventClaimed g cap s t) acc0
    let f1 := if acc.needsReflow then reflowSum g acc.een acc.F s else init.1
    let fin :=
      if acc.addedEdges then maxFlowP g cap acc.een s t f1 acc.F acc.prev acc.M
      else (f1, acc.F, acc.prev, acc.M)
    (fin.1,
     { f := fin.1, F := fin.2.1, curflow := fin.1,
       last_modification := g.modifications, last_deletion := g.deletions,
       last_addition := g.additions, history_qhead := g.hist.length,
       last_history_clear := g.historyclears, prev := fin.2.2.1,
       M := fin.2.2.2, edge_enabled := acc.een })

/-- Replay accumulator at the start of scenario A's deletion replay. -/
def accA0 : ReplayAcc :=
  { F := stateA1.F, prev := stateA1.prev, M := stateA1.M,
    een := stateA1.edge_enabled, addedEdges := false, needsReflow := false }

/-- Replay accumulator after scenario A's deletion event is processed. -/
def accA1 : ReplayAcc :=
  (graphA2.hist.drop stateA1.history_qhead).foldl
    (processEvent graphA2 capA 0 3) accA0

end EKD

namespace CoverM

/-- Three-valued truth value (`lbool`): true, false, undefined. -/
inductive LB where
  | t
  | f
  | u
  deriving DecidableEq, Repr

/-- A literal: variable index plus sign; `sign = true` is the negated
literal. -/
structure Lit where
  v : Nat
  sign : Bool
  deriving DecidableEq, Repr

instance : Inhabited Lit := ⟨⟨0, false⟩⟩

/-- Literal negation (`~p`). -/
def negLit (l : Lit) : Lit := ⟨l.v, !l.sign⟩

/-- `mkLit(v)`: the positive literal of variable `v`. -/
def mkLit (v : Nat) : Lit := ⟨v, false⟩

/-- Read-only solver view used by `Cover` (interface of section 6 of the
spec): variable count, assignment, clause list, trail with its level-0
boundary, and the watch lists (clause index and blocker literal). -/
structure Solver where
  nVars : Nat
  assigns : Nat → LB
  clauses : List (List Lit)
  trail : List Lit
  trailLim0 : Nat
  decisionLevel : Nat
  watches : Lit → List (Nat × Lit)

/-- `S.value(l)`. -/
def Solver.value (S : Solver) (l : Lit) : LB :=
  match S.assigns l.v with
  | LB.u => LB.u
  | LB.t => if l.sign then LB.f else LB.t
  | LB.f => if l.sign then LB.t else LB.f

/-- Persistent state of a `Cover` instance: the inclusion vector and the
lazily built eligible-variable list.  The remaining member vectors are
fully cleared at the start of every `getCover` call, so they live inside
the call. -/
structure CoverSt where
  incl : List Bool
  subset : List Nat
  deriving DecidableEq, Repr

/-- Freshly constructed `Cover` object. -/
def initCover : CoverSt := { incl := [], subset := [] }

/-- `vec::growTo(n, d)`: extend with `d` up to length `n` (no-op when
already long enough). -/
def growTo (l : List Bool) (n : Nat) (d : Bool) : List Bool :=
  l ++ List.replicate (n - l.length) d

/-- `excludeFromCover(v, exclude)` (lines 65-68): grow the inclusion
vector to `v+1` entries (default true) and set entry `v` to
`not exclude`. -/
def excludeFromCover (st : CoverSt) (v : Nat) (exclude : Bool) : CoverSt :=
  { st with incl := (growTo st.incl (v + 1) true).set v (!exclude) }

/-- Building the eligible-variable list (lines 74-80): every index of the
inclusion vector whose flag is set, in increasing order. -/
def buildSubset (incl : List Bool) : List Nat :=
  (List.range incl.length).filter fun i => incl.getD i false

/-- The trail segment scanned by the first pass (line 87): the whole
trail at decision level 0, otherwise the level-0 part `trail_lim[0]`. -/
def trailPref (S : Solver) : List Lit :=
  S.trail.take (if S.decisionLevel = 0 then S.trail.length else S.trailLim0)

/-- First pass over the trail (lines 87-97): every included literal of the
level-0 segment enters the cover. -/
def passTrail (S : Solver) (incl : List Bool) : List Bool × List Lit :=
  (trailPref S).foldl
    (fun st l =>
      if incl.getD l.v true then (st.1.set l.v true, st.2 ++ [l])
      else st)
    (List.replicate S.nVars false, [])

/-- Scan of one watch list in fast mode (lines 161-195): clauses whose
blocker is a true excluded-or-covered literal are skipped; otherwise the
other watcher decides, and when variable `v` is chosen its true literal
`p` enters the cover and the scan of this watch list stops. -/
def fastScanWs (S : Solver) (incl : List Bool) (v : Nat) (p : Lit) :
    List (Nat × Lit) → List Bool × List Lit → List Bool × List Lit
  | [], st => st
  | (cr, blocker) :: rest, st =>
    if S.value blocker = LB.t ∧
        (¬(incl.getD blocker.v true = true) ∨ st.1.getD blocker.v false = true) then
      fastScanWs S incl v p rest st
    else
      let c := S.clauses.getD cr []
      let other := if c.getD 0 default = p then c.getD 1 default
                   else c.getD 0 default
      if S.value other = LB.t then
        if ¬(incl.getD other.v true = true) ∨ st.1.getD other.v false = true then
          fastScanWs S incl v p rest st
        else (st.1.set v true, st.2 ++ [p])
      else (st.1.set v true, st.2 ++ [p])

/-- Fast-mode loop over the eligible-variable list (lines 147-197): for
each eligible variable not yet covered, scan the clauses watching the
negation of its true literal. -/
def fastLoop (S : Solver) (incl : List Bool) :
    List Nat → List Bool × List Lit → List Bool × List Lit
  | [], st => st
  | v :: rest, st =>
    if st.1.getD v false then fastLoop S incl rest st
    else
      let p0 := mkLit v
      let p := if S.value p0 = LB.f then negLit p0 else p0
      fastLoop S incl rest (fastScanWs S incl v p (S.watches (negLit p)) st)

/-- Clause scan of the forced pass (lines 224-245): count non-false
literals; a non-false literal of an excluded variable resets the count to
0 and stops the scan; a second non-false included literal stops it at 2.
Returns the count (clamped at 2) and the last candidate literal. -/
def scan1 (S : Solver) (incl : List Bool) :
    List Lit → Nat → Option Lit → Nat × Option Lit
  | [], cnt, pl => (cnt, pl)
  | l :: ls, cnt, pl =>
    if S.value l ≠ LB.f then
      if ¬(incl.getD l.v true = true) then (0, pl)
      else if cnt + 1 > 1 then (cnt + 1, some l)
      else scan1 S incl ls (cnt + 1) (some l)
    else scan1 S incl ls cnt pl

/-- State after the forced pass: in-cover flags, cover list and the
per-clause cover counts. -/
structure P1St where
  ic : List Bool
  cov : List Lit
  cnt : List Nat
  deriving Repr

/-- Forced pass over all clauses (lines 216-259): a clause whose scan
yields exactly one candidate gets its count bumped and the candidate
enters the cover if its variable is not yet covered. -/
def passForced (S : Solver) (incl : List Bool) (ic0 : List Bool)
    (cov0 : List Lit) : P1St :=
  (List.range S.clauses.length).foldl
    (fun st i =>
      let r := scan1 S incl (S.clauses.getD i []) 0 none
      if r.1 = 1 then
        let pl := r.2.getD default
        let cnt' := st.cnt.set i (st.cnt.getD i 0 + 1)
        if ¬(st.ic.getD pl.v false = true) then
          { ic := st.ic.set pl.v true, cov := st.cov ++ [pl], cnt := cnt' }
        else { st with cnt := cnt' }
      else st)
    { ic := ic0, cov := cov0, cnt := List.replicate (S.clauses.length + 1) 0 }

/-- Clause scan of the second pass (lines 266-303): walk the true
literals; the first one that is excluded or already covered marks the
clause satisfied (`none`); otherwise all true literals are collected as
potential cover literals. -/
def scan2 (S : Solver) (incl ic : List Bool) :
    List Lit → List Lit → Option (List Lit)
  | [], acc => some acc
  | l :: ls, acc =>
    if S.value l = LB.t then
      if ¬(incl.getD l.v true = true) then none
      else if ic.getD l.v false then none
      else scan2 S incl ic ls (acc ++ [l])
    else scan2 S incl ic ls acc

/-- State after the second pass: per-clause cover counts, per-variable
greedy scores, per-variable uncovered-clause lists and the candidate
list. -/
structure P2St where
  cnt : List Nat
  score : List Nat
  lists : List (List Nat)
  pot : List Lit
  deriving Repr

/-- Second pass over all clauses (lines 262-327): satisfied clauses bump
their count; unsatisfied ones contribute their true literals to scores,
uncovered-clause lists and (on a score's first bump) the candidate
list. -/
def passScore (S : Solver) (incl ic : List Bool) (cnt1 : List Nat) : P2St :=
  (List.range S.clauses.length).foldl
    (fun st i =>
      match scan2 S incl ic (S.clauses.getD i []) [] with
      | none => { st with cnt := st.cnt.set i (st.cnt.getD i 0 + 1) }
      | some unc =>
        unc.foldl
          (fun st l =>
            let st' := if st.score.getD l.v 0 = 0
                       then { st with pot := st.pot ++ [l] } else st
            { st' with
              score := st'.score.set l.v (st'.score.getD l.v 0 + 1),
              lists := st'.lists.set l.v (st'.lists.getD l.v [] ++ [i]) })
          st)
    { cnt := cnt1, score := List.replicate S.nVars 0,
      lists := List.replicate S.nVars [], pot := [] }

/-- Modelled from the spec: the call `sort(potentialCoverLits,
cover_lt(*this))` at line 329 uses the sort template of `mtl/Sort.h`,
which is not among the provided sources; the spec describes it as sorting
the candidate literals by descending greedy score with stable tie-break
(insertion order decides ties).  A stable insertion sort that moves a
literal ahead only past strictly lower scores implements that
description. -/
def insertDesc (score : List Nat) (l : Lit) : List Lit → List Lit
  | [] => [l]
  | x :: xs =>
    if score.getD x.v 0 < score.getD l.v 0 then l :: x :: xs
    else x :: insertDesc score l xs

def sortPot (score : List Nat) (pot : List Lit) : List Lit :=
  pot.foldr (insertDesc score) []

/-- The scan for the first uncovered clause at the head of the greedy
loop (lines 338-344), as a fuel-bounded loop; `numCl - i` steps always
suffice to reach the loop bound. -/
def findUncovGo (cnt : List Nat) (numCl : Nat) :
    Nat → Nat → Option Nat
  | 0, _ => none
  | fuel + 1, i =>
    if i < numCl then
      if cnt.getD i 0 = 0 then some i
      else findUncovGo cnt numCl fuel (i + 1)
    else none

def findUncov (cnt : List Nat) (numCl : Nat) (i : Nat) : Option Nat :=
  findUncovGo cnt numCl (numCl - i) i

/-- Greedy pass (lines 333-372): while some clause is uncovered, take the
next candidate; if it still covers a new clause, append it to the cover
and bump the counts of all clauses on its list.  When the candidate list
runs out while a clause is still uncovered the source reads past the end
of the vector; that case is unreachable under the preconditions (see
`pass3_invariant` below) and the embedding returns the current state. -/
def pass3 (lists : List (List Nat)) (numCl : Nat) :
    List Lit → Nat → List Nat → List Lit → List Nat × List Lit
  | rem, i, cnt, cov =>
    match findUncov cnt numCl i with
    | none => (cnt, cov)
    | some i' =>
      match rem with
      | [] => (cnt, cov)
      | l :: rest =>
        let cls := lists.getD l.v []
        if cls.all fun c => cnt.getD c 0 ≠ 0 then
          pass3 lists numCl rest i' cnt cov
        else
          pass3 lists numCl rest i'
            (cls.foldl (fun cn c => cn.set c (cn.getD c 0 + 1)) cnt)
            (cov ++ [l])

/-- Essentiality pruning loop (lines 390-417): a literal all of whose
clauses have count at least 2 is dropped and those counts decremented;
otherwise it is kept. -/
def pruneLoop (lists : List (List Nat)) :
    List Lit → List Nat → List Lit → List Nat × List Lit
  | [], cnt, kept => (cnt, kept)
  | l :: rest, cnt, kept =>
    let cls := lists.getD l.v []
    if cls.all fun c => cnt.getD c 0 ≠ 1 then
      pruneLoop lists rest
        (cls.foldl (fun cn c => cn.set c (cn.getD c 0 - 1)) cnt) kept
    else pruneLoop lists rest cnt (kept ++ [l])

/-- `getCover(S, cover)` (lines 71-466); `fast` is the `opt_fast_partial`
option.  Returns the updated persistent state and the cover list. -/
def getCover (S : Solver) (fast : Bool) (st : CoverSt) :
    CoverSt × List Lit :=
  let incl := growTo st.incl S.nVars true
  let subset := if st.subset.isEmpty then buildSubset incl else st.subset
  let st' : CoverSt := { incl := incl, subset := subset }
  let tr := passTrail S incl
  if fast then (st', (fastLoop S incl subset tr).2)
  else
    let p1 := passForced S incl tr.1 tr.2
    let p2 := passScore S incl p1.ic p1.cnt
    let r3 := pass3 p2.lists S.clauses.length (sortPot p2.score p2.pot) 0
      p2.cnt p1.cov
    let lead := r3.2.takeWhile fun l => (p2.lists.getD l.v []).isEmpty
    let rest := r3.2.dropWhile fun l => (p2.lists.getD l.v []).isEmpty
    (st', lead ++ (pruneLoop p2.lists rest r3.1 []).2)

/-- Helper turning a list of truth values into an assignment function. -/
def asg (l : List LB) : Nat → LB := fun v => l.getD v LB.u

/-- Cover scenario A of the specification (variables renamed 0,1,2): all
variables included, clauses (x0 ∨ x1), (¬x0 ∨ x2), (x1 ∨ x2), assignment
x0 = true, x1 = false, x2 = true, all three assigned as decisions
(decision level 1, empty level-0 segment), watch lists unused in exact
mode. -/
def solvA : Solver :=
  { nVars := 3, assigns := asg [LB.t, LB.f, LB.t],
    clauses := [[⟨0, false⟩, ⟨1, false⟩], [⟨0, true⟩, ⟨2, false⟩],
                [⟨1, false⟩, ⟨2, false⟩]],
    trail := [⟨0, false⟩, ⟨1, true⟩, ⟨2, false⟩], trailLim0 := 0,
    decisionLevel := 1, watches := fun _ => [] }

/-- Fast-mode counterexample instance: one clause (x0 ∨ x1 ∨ x2) whose
watchers x0, x1 belong to excluded unassigned variables while the
included variable x2 is true; the clause sits on the watch lists of the
watchers' negations with the other watcher as blocker, as MiniSat keeps
it. -/
def solvFast : Solver :=
  { nVars := 3, assigns := asg [LB.u, LB.u, LB.t],
    clauses := [[⟨0, false⟩, ⟨1, false⟩, ⟨2, false⟩]],
    trail := [⟨2, false⟩], trailLim0 := 0, decisionLevel := 1,
    watches := fun l =>
      if l = negLit ⟨0, false⟩ then [(0, ⟨1, false⟩)]
      else if l = negLit ⟨1, false⟩ then [(0, ⟨0, false⟩)]
      else [] }

/-- Cover state with variables 0 and 1 excluded. -/
def cstFast : CoverSt :=
  excludeFromCover (excludeFromCover initCover 0 true) 1 true

/-- Exact-mode counterexample instance: the single clause (x0 ∨ x0) with a
repeated literal, x0 true and included. -/
def solvDup : Solver :=
  { nVars := 1, assigns := asg [LB.t], clauses := [[⟨0, false⟩, ⟨0, false⟩]],
    trail := [⟨0, false⟩], trailLim0 := 0, decisionLevel := 1,
    watches := fun _ => [] }

/-- Witness instance for local minimality: clauses (x0 ∨ x1) and
(x0 ∨ x2) with every variable true and included; the greedy pass covers
both clauses with the single literal x0. -/
def solvW : Solver :=
  { nVars := 3, assigns := asg [LB.t, LB.t, LB.t],
    clauses := [[⟨0, false⟩, ⟨1, false⟩], [⟨0, false⟩, ⟨2, false⟩]],
    trail := [⟨0, false⟩, ⟨1, false⟩, ⟨2, false⟩], trailLim0 := 0,
    decisionLevel := 1, watches := fun _ => [] }

def trueLits (S : Solver) (c : List Lit) : List Lit :=
  c.filter fun l => S.value l == LB.t

/-- The step of the forced pass, named for the proofs below. -/
def forcedStep (S : Solver) (incl : List Bool) (st : P1St) (i : Nat) :
    P1St :=
  let r := scan1 S incl (S.clauses.getD i []) 0 none
  if r.1 = 1 then
    let pl := r.2.getD default
    let cnt' := st.cnt.set i (st.cnt.getD i 0 + 1)
    if ¬(st.ic.getD pl.v false = true) then
      { ic := st.ic.set pl.v true, cov := st.cov ++ [pl], cnt := cnt' }
    else { st with cnt := cnt' }
  else st

/-- The step of the scoring pass, named for the proofs below. -/
def scoreStep (S : Solver) (incl ic : List Bool) (st : P2St) (i : Nat) :
    P2St :=
  match scan2 S incl ic (S.clauses.getD i []) [] with
  | none => { st with cnt := st.cnt.set i (st.cnt.getD i 0 + 1) }
  | some unc =>
    unc.foldl
      (fun st l =>
        let st' := if st.score.getD l.v 0 = 0
                   then { st with pot := st.pot ++ [l] } else st
        { st' with
          score := st'.score.set l.v (st'.score.getD l.v 0 + 1),
          lists := st'.lists.set l.v (st'.lists.getD l.v [] ++ [i]) })
      st

/-- Validity invariant carried by the in-cover flags and the cover list:
cover literals are true and included, their variables are flagged, and
every flagged variable has a cover literal. -/
def IcCov (S : Solver) (incl : List Bool) (ic : List Bool)
    (cov : List Lit) : Prop :=
  (∀ l ∈ cov, S.value l = LB.t ∧ incl.getD l.v true = true) ∧
  (∀ l ∈ cov, ic.getD l.v false = true) ∧
  (∀ v, ic.getD v false = true → ∃ l ∈ cov, l.v = v)

/-- A clause is forced when the forced-pass scan returns count 1. -/
def ForcedCl (S : Solver) (incl : List Bool) (c : List Lit) : Prop :=
  (scan1 S incl c 0 none).1 = 1

instance (S : Solver) (incl : List Bool) (c : List Lit) :
    Decidable (ForcedCl S incl c) := by
  unfold ForcedCl; infer_instance

/-- The candidate literal of a forced clause. -/
def forcedLit (S : Solver) (incl : List Bool) (c : List Lit) : Lit :=
  (scan1 S incl c 0 none).2.getD default

/-- The per-literal step inside the scoring pass, named for the proofs
below (`i` is the clause index being processed). -/
def scoreInner (i : Nat) (st : P2St) (l : Lit) : P2St :=
  let st' := if st.score.getD l.v 0 = 0
             then { st with pot := st.pot ++ [l] } else st
  { st' with
    score := st'.score.set l.v (st'.score.getD l.v 0 + 1),
    lists := st'.lists.set l.v (st'.lists.getD l.v [] ++ [i]) }

/-- Number of true literals of variable `v` in a clause. -/
def multV (S : Solver) (c : List Lit) (v : Nat) : Nat :=
  ((trueLits S c).filter fun l => decide (l.v = v)).length

/-- A clause is reported satisfied by the second-pass scan. -/
def SatCl (S : Solver) (incl ic : List Bool) (c : List Lit) : Prop :=
  scan2 S incl ic c [] = none

instance (S : Solver) (incl ic : List Bool) (c : List Lit) :
    Decidable (SatCl S incl ic c) := by
  unfold SatCl; infer_instance

/-- The uncovered true literals a second-pass scan collects from a
clause (empty when the clause is reported satisfied). -/
def uncOf (S : Solver) (incl ic : List Bool) (c : List Lit) : List Lit :=
  (scan2 S incl ic c []).getD []

/-- The second-pass prefix: the scoring fold over the first `m` clause
indices. -/
def p2Fold (S : Solver) (incl ic : List Bool) (cnt1 : List Nat) (m : Nat) :
    P2St :=
  (List.range m).foldl (scoreStep S incl ic)
    { cnt := cnt1, score := List.replicate S.nVars 0,
      lists := List.replicate S.nVars [], pot := [] }

/-- Total number of occurrences of clause `c` on the lists of the
literals of `L`. -/
def sumCnt (lists : List (List Nat)) (L : List Lit) (c : Nat) : Nat :=
  (L.map fun l => (lists.getD l.v []).count c).sum

/-- The inclusion vector as the exact-mode cover pipeline sees it. -/
def coverIncl (S : Solver) (st : CoverSt) : List Bool :=
  growTo st.incl S.nVars true

/-- The forced-pass state of the exact-mode cover pipeline. -/
def coverP1 (S : Solver) (st : CoverSt) : P1St :=
  passForced S (coverIncl S st) (passTrail S (coverIncl S st)).1
    (passTrail S (coverIncl S st)).2

/-- The scoring-pass state of the exact-mode cover pipeline. -/
def coverP2 (S : Solver) (st : CoverSt) : P2St :=
  passScore S (coverIncl S st) (coverP1 S st).ic (coverP1 S st).cnt

/-- The per-variable clause-index lists built by the scoring pass. -/
def coverLists (S : Solver) (st : CoverSt) : List (List Nat) :=
  (coverP2 S st).lists

/-- The counts and cover after the greedy pass. -/
def coverR3 (S : Solver) (st : CoverSt) : List Nat × List Lit :=
  pass3 (coverP2 S st).lists S.clauses.length
    (sortPot (coverP2 S st).score (coverP2 S st).pot) 0
    (coverP2 S st).cnt (coverP1 S st).cov

/-- The counts and kept literals after the essentiality pruning. -/
def coverPrune (S : Solver) (st : CoverSt) : List Nat × List Lit :=
  pruneLoop (coverP2 S st).lists
    ((coverR3 S st).2.dropWhile
      fun l => ((coverP2 S st).lists.getD l.v []).isEmpty)
    (coverR3 S st).1 []

end CoverM

namespace CoverM

section Helpers

variable {α : Type}

/-- Reading a slot just written. -/
theorem getD_set_self (l : List α) (i : Nat) (x d : α) (h : i < l.length) :
    (l.set i x).getD i d = x := by
  simp [List.getD_eq_getElem?_getD, List.getElem?_set, h]

/-- Reading a different slot after a write. -/
theorem getD_set_other (l : List α) (i j : Nat) (x d : α) (h : i ≠ j) :
    (l.set i x).getD j d = l.getD j d := by
  simp [List.getD_eq_getElem?_getD, List.getElem?_set_ne h]

/-- Incrementing counters along a list of slots: the slot `cl` grows by
the number of occurrences of `cl`. -/
theorem foldl_bump_getD (cls : List Nat) (cnt : List Nat) (cl : Nat)
    (hlen : ∀ c ∈ cls, c < cnt.length) :
    ((cls.foldl (fun cn c => cn.set c (cn.getD c 0 + 1)) cnt).getD cl 0)
      = cnt.getD cl 0 + cls.count cl := by
  induction cls generalizing cnt with
  | nil => simp
  | cons c rest ih =>
    have hc : c < cnt.length := hlen c (by simp)
    have hrest : ∀ x ∈ rest, x < (cnt.set c (cnt.getD c 0 + 1)).length := by
      intro x hx; simpa using hlen x (by simp [hx])
    simp only [List.foldl_cons, ih _ hrest, List.count_cons]
    by_cases hEq : c = cl
    · subst hEq
      rw [getD_set_self _ _ _ _ hc]
      simp only [beq_self_eq_true, if_true]
      omega
    · rw [getD_set_other _ _ _ _ _ hEq]
      have hb : (c == cl) = false := by simp [hEq]
      simp only [hb, Bool.false_eq_true, if_false]
      omega

/-- Decrementing counters along a list of slots (truncated subtraction):
the slot `cl` shrinks by the number of occurrences of `cl`. -/
theorem foldl_decr_getD (cls : List Nat) (cnt : List Nat) (cl : Nat)
    (hlen : ∀ c ∈ cls, c < cnt.length) :
    ((cls.foldl (fun cn c => cn.set c (cn.getD c 0 - 1)) cnt).getD cl 0)
      = cnt.getD cl 0 - cls.count cl := by
  induction cls generalizing cnt with
  | nil => simp
  | cons c rest ih =>
    have hc : c < cnt.length := hlen c (by simp)
    have hrest : ∀ x ∈ rest, x < (cnt.set c (cnt.getD c 0 - 1)).length := by
      intro x hx; simpa using hlen x (by simp [hx])
    simp only [List.foldl_cons, ih _ hrest, List.count_cons]
    by_cases hEq : c = cl
    · subst hEq
      rw [getD_set_self _ _ _ _ hc]
      simp only [beq_self_eq_true, if_true]
      omega
    · rw [getD_set_other _ _ _ _ _ hEq]
      have hb : (c == cl) = false := by simp [hEq]
      simp only [hb, Bool.false_eq_true, if_false]
      omega

/-- Length is preserved by the counter folds. -/
theorem foldl_set_length (f : List α → Nat → α) (cls : List Nat)
    (cnt : List α) :
    (cls.foldl (fun cn c => cn.set c (f cn c)) cnt).length = cnt.length := by
  induction cls generalizing cnt with
  | nil => rfl
  | cons c rest ih => simp [ih]

end Helpers

/-- Two literals of the same variable that are both true under the same
assignment are the same literal. -/
theorem value_true_unique (S : Solver) (l l' : Lit)
    (h : S.value l = LB.t) (h' : S.value l' = LB.t) (hv : l.v = l'.v) :
    l = l' := by
  cases l with
  | mk v s =>
    cases l' with
    | mk v' s' =>
      cases hv
      unfold Solver.value at h h'
      cases hval : S.assigns v <;> rw [hval] at h h' <;>
        cases s <;> cases s' <;> simp_all

/-- Unfolding equations for scan2, stated with plain getD reads. -/
theorem scan2_cons (S : Solver) (incl ic : List Bool) (l : Lit)
    (ls : List Lit) (acc : List Lit) :
    scan2 S incl ic (l :: ls) acc =
      if S.value l = LB.t then
        if incl.getD l.v true = true then
          if ic.getD l.v false = true then none
          else scan2 S incl ic ls (acc ++ [l])
        else none
      else scan2 S incl ic ls acc := by
  simp only [scan2, List.getD_eq_getElem?_getD]
  by_cases hv : S.value l = LB.t <;> simp [hv] <;>
    by_cases hincl : incl[l.v]?.getD true = true <;> simp [hincl]

theorem scan2_none_iff (S : Solver) (incl ic : List Bool) (c : List Lit) :
    ∀ acc, scan2 S incl ic c acc = none ↔
      ∃ l ∈ c, S.value l = LB.t ∧
        (¬(incl.getD l.v true = true) ∨ ic.getD l.v false = true) := by
  induction c with
  | nil => intro acc; simp [scan2]
  | cons l ls ih =>
    intro acc
    rw [scan2_cons]
    by_cases hv : S.value l = LB.t
    · by_cases hincl : incl.getD l.v true = true
      · by_cases hic : ic.getD l.v false = true
        · rw [if_pos hv, if_pos hincl, if_pos hic]
          constructor
          · intro _; exact ⟨l, by simp, hv, Or.inr hic⟩
          · intro _; rfl
        · rw [if_pos hv, if_pos hincl, if_neg hic]
          rw [ih]
          constructor
          · rintro ⟨m, hm, hmt, hmc⟩; exact ⟨m, by simp [hm], hmt, hmc⟩
          · rintro ⟨m, hm, hmt, hmc⟩
            rcases List.mem_cons.mp hm with h | h
            · subst h
              rcases hmc with h' | h'
              · exact absurd hincl h'
              · exact absurd h' hic
            · exact ⟨m, h, hmt, hmc⟩
      · rw [if_pos hv, if_neg hincl]
        constructor
        · intro _; exact ⟨l, by simp, hv, Or.inl hincl⟩
        · intro _; rfl
    · rw [if_neg hv]
      rw [ih]
      constructor
      · rintro ⟨m, hm, hmt, hmc⟩; exact ⟨m, by simp [hm], hmt, hmc⟩
      · rintro ⟨m, hm, hmt, hmc⟩
        rcases List.mem_cons.mp hm with h | h
        · subst h; exact absurd hmt hv
        · exact ⟨m, h, hmt, hmc⟩

theorem scan2_some_spec (S : Solver) (incl ic : List Bool) (c : List Lit) :
    ∀ acc res, scan2 S incl ic c acc = some res →
      res = acc ++ trueLits S c ∧
      ∀ l ∈ c, S.value l = LB.t →
        incl.getD l.v true = true ∧ ic.getD l.v false = false := by
  induction c with
  | nil =>
    intro acc res h
    simp [scan2] at h
    simp [trueLits, ← h]
  | cons l ls ih =>
    intro acc res h
    rw [scan2_cons] at h
    by_cases hv : S.value l = LB.t
    · by_cases hincl : incl.getD l.v true = true
      · by_cases hic : ic.getD l.v false = true
        · rw [if_pos hv, if_pos hincl, if_pos hic] at h
          exact absurd h (by simp)
        · rw [if_pos hv, if_pos hincl, if_neg hic] at h
          obtain ⟨hres, hall⟩ := ih _ _ h
          refine ⟨?_, ?_⟩
          · rw [hres]; simp [trueLits, hv]
          · intro m hm hmt
            rcases List.mem_cons.mp hm with heq | hmem
            · subst heq
              exact ⟨hincl, by simpa using hic⟩
            · exact hall m hmem hmt
      · rw [if_pos hv, if_neg hincl] at h
        exact absurd h (by simp)
    · rw [if_neg hv] at h
      obtain ⟨hres, hall⟩ := ih _ _ h
      refine ⟨?_, ?_⟩
      · rw [hres]; simp [trueLits, hv]
      · intro m hm hmt
        rcases List.mem_cons.mp hm with heq | hmem
        · subst heq; exact absurd hmt hv
        · exact hall m hmem hmt

/-- Unfolding equation for the forced-pass scan. -/
theorem scan1_cons (S : Solver) (incl : List Bool) (l : Lit) (ls : List Lit)
    (cnt : Nat) (pl : Option Lit) :
    scan1 S incl (l :: ls) cnt pl =
      if S.value l ≠ LB.f then
        if ¬(incl.getD l.v true = true) then (0, pl)
        else if cnt + 1 > 1 then (cnt + 1, some l)
        else scan1 S incl ls (cnt + 1) (some l)
      else scan1 S incl ls cnt pl := by
  simp only [scan1, List.getD_eq_getElem?_getD]

/-- A forced-pass scan that ends with count 1 either saw no non-false
literal (returning the incoming candidate, so the count was already 1),
or returns a candidate that is a non-false included literal of the
clause. -/
theorem scan1_count_one (S : Solver) (incl : List Bool) (c : List Lit) :
    ∀ (cnt : Nat) (pl0 : Option Lit),
      (scan1 S incl c cnt pl0).1 = 1 →
      ((scan1 S incl c cnt pl0).2 = pl0 ∧ cnt = 1) ∨
      (∃ pl ∈ c, S.value pl ≠ LB.f ∧ incl.getD pl.v true = true ∧
        (scan1 S incl c cnt pl0).2 = some pl) := by
  induction c with
  | nil =>
    intro cnt pl0 h
    simp [scan1] at h ⊢
    exact h
  | cons l ls ih =>
    intro cnt pl0 h
    rw [scan1_cons] at h ⊢
    by_cases hv : S.value l ≠ LB.f
    · by_cases hincl : incl.getD l.v true = true
      · by_cases hbig : cnt + 1 > 1
        · rw [if_pos hv, if_neg (by simpa using hincl), if_pos hbig] at h ⊢
          simp at h
          omega
        · rw [if_pos hv, if_neg (by simpa using hincl), if_neg hbig] at h ⊢
          rcases ih (cnt + 1) (some l) h with ⟨h1, _⟩ | ⟨pl, hm, h2, h3, h4⟩
          · exact Or.inr ⟨l, by simp, hv, hincl, h1⟩
          · exact Or.inr ⟨pl, by simp [hm], h2, h3, h4⟩
      · rw [if_pos hv, if_pos (by simpa using hincl)] at h
        simp at h
    · rw [if_neg hv] at h ⊢
      rcases ih cnt pl0 h with ⟨h1, h2⟩ | ⟨pl, hm, h2, h3, h4⟩
      · exact Or.inl ⟨h1, h2⟩
      · exact Or.inr ⟨pl, by simp [hm], h2, h3, h4⟩

/-- The forced pass is the fold of its step over the clause indices. -/
theorem passForced_eq (S : Solver) (incl : List Bool) (ic0 : List Bool)
    (cov0 : List Lit) :
    passForced S incl ic0 cov0 =
      (List.range S.clauses.length).foldl (forcedStep S incl)
        { ic := ic0, cov := cov0,
          cnt := List.replicate (S.clauses.length + 1) 0 } := rfl

/-- The scoring pass is the fold of its step over the clause indices. -/
theorem passScore_eq (S : Solver) (incl ic : List Bool) (cnt1 : List Nat) :
    passScore S incl ic cnt1 =
      (List.range S.clauses.length).foldl (scoreStep S incl ic)
        { cnt := cnt1, score := List.replicate S.nVars 0,
          lists := List.replicate S.nVars [], pot := [] } := rfl

theorem getD_replicate {α : Type} (n i : Nat) (x : α) :
    (List.replicate n x).getD i x = x := by
  rcases lt_or_le i n with h | h
  · simp [List.getD_eq_getElem?_getD, List.getElem?_replicate, h]
  · rw [List.getD_eq_getElem?_getD, List.getElem?_eq_none (by simpa using h)]
    rfl

theorem passTrail_fold (S : Solver) (incl : List Bool) :
    ∀ (tl : List Lit), (∀ l ∈ tl, S.value l = LB.t ∧ l.v < S.nVars) →
    ∀ ic cov, IcCov S incl ic cov → ic.length = S.nVars →
      IcCov S incl
        (tl.foldl (fun st l =>
          if incl.getD l.v true then (st.1.set l.v true, st.2 ++ [l])
          else st) (ic, cov)).1
        (tl.foldl (fun st l =>
          if incl.getD l.v true then (st.1.set l.v true, st.2 ++ [l])
          else st) (ic, cov)).2 ∧
      (tl.foldl (fun st l =>
        if incl.getD l.v true then (st.1.set l.v true, st.2 ++ [l])
        else st) (ic, cov)).1.length = S.nVars := by
  intro tl
  induction tl with
  | nil => intro _ ic cov h hl; exact ⟨h, hl⟩
  | cons l ls ih =>
    intro htl ic cov h hl
    have hlt := htl l (by simp)
    have hls : ∀ m ∈ ls, S.value m = LB.t ∧ m.v < S.nVars := by
      intro m hm; exact htl m (by simp [hm])
    by_cases hincl : incl.getD l.v true = true
    · simp only [List.foldl_cons, hincl, if_true]
      refine ih hls _ _ ?_ (by simp [hl])
      obtain ⟨h1, h2, h3⟩ := h
      refine ⟨?_, ?_, ?_⟩
      · intro m hm
        rcases List.mem_append.mp hm with hm | hm
        · exact h1 m hm
        · simp at hm; subst hm; exact ⟨hlt.1, hincl⟩
      · intro m hm
        rcases List.mem_append.mp hm with hm | hm
        · by_cases hv : l.v = m.v
          · rw [← hv, getD_set_self _ _ _ _ (by rw [hl]; exact hlt.2)]
          · rw [getD_set_other _ _ _ _ _ hv]; exact h2 m hm
        · simp at hm; subst hm
          rw [getD_set_self _ _ _ _ (by rw [hl]; exact hlt.2)]
      · intro v hv
        by_cases hveq : l.v = v
        · exact ⟨l, by simp, hveq⟩
        · rw [getD_set_other _ _ _ _ _ hveq] at hv
          obtain ⟨m, hm, hmv⟩ := h3 v hv
          exact ⟨m, by simp [hm], hmv⟩
    · simp only [List.foldl_cons, hincl, if_false, Bool.false_eq_true]
      exact ih hls ic cov h hl

theorem passTrail_spec (S : Solver) (incl : List Bool)
    (htrail : ∀ l ∈ trailPref S, S.value l = LB.t ∧ l.v < S.nVars) :
    IcCov S incl (passTrail S incl).1 (passTrail S incl).2 ∧
    (passTrail S incl).1.length = S.nVars := by
  unfold passTrail
  refine passTrail_fold S incl (trailPref S) htrail _ _ ?_ (by simp)
  refine ⟨by simp, by simp, ?_⟩
  intro v hv
  rw [List.getD_eq_getElem?_getD] at hv
  rcases lt_or_le v S.nVars with h | h
  · simp [List.getElem?_replicate, h] at hv
  · rw [List.getElem?_eq_none (by simpa using h)] at hv
    simp at hv

/-- The candidate of a forced clause is a non-false included literal of
the clause. -/
theorem forcedLit_mem (S : Solver) (incl : List Bool) (c : List Lit)
    (h : ForcedCl S incl c) :
    forcedLit S incl c ∈ c ∧ S.value (forcedLit S incl c) ≠ LB.f ∧
      incl.getD (forcedLit S incl c).v true = true := by
  rcases scan1_count_one S incl c 0 none h with ⟨_, h2⟩ | ⟨pl, hm, h2, h3, h4⟩
  · omega
  · unfold forcedLit
    rw [h4]
    exact ⟨hm, h2, h3⟩

/-- A non-false literal of an assigned variable is true. -/
theorem value_true_of_ne_f (S : Solver) (l : Lit)
    (hu : S.assigns l.v ≠ LB.u) (hf : S.value l ≠ LB.f) :
    S.value l = LB.t := by
  unfold Solver.value at hf ⊢
  cases h : S.assigns l.v <;> rw [h] at hf <;> cases hs : l.sign <;>
    simp_all

/-- Arithmetic helpers for the per-slot count bookkeeping. -/
theorem cnt_if_bump (m : Nat) (F : Prop) [Decidable F] (hF : F) :
    (if m < m ∧ F then (1 : Nat) else 0) + 1 =
      if m < m + 1 ∧ F then 1 else 0 := by
  rw [if_neg (fun hh => Nat.lt_irrefl m hh.1),
    if_pos ⟨Nat.lt_succ_self m, hF⟩]

theorem cnt_if_keep (m i : Nat) (F : Prop) [Decidable F] (hne : i ≠ m) :
    (if i < m ∧ F then (1 : Nat) else 0) =
      if i < m + 1 ∧ F then 1 else 0 := by
  by_cases h : i < m
  · exact if_congr ⟨fun hh => ⟨by omega, hh.2⟩, fun hh => ⟨h, hh.2⟩⟩ rfl rfl
  · have h2 : ¬(i < m + 1) := by omega
    rw [if_neg (fun hh => h hh.1), if_neg (fun hh => h2 hh.1)]

theorem cnt_if_same_not (m : Nat) (F : Prop) [Decidable F] (hF : ¬F) :
    (if m < m ∧ F then (1 : Nat) else 0) =
      if m < m + 1 ∧ F then 1 else 0 := by
  rw [if_neg (fun hh => hF hh.2), if_neg (fun hh => hF hh.2)]

/-- Setting a flag never clears another one. -/
theorem getD_set_true_mono (l : List Bool) (i v : Nat)
    (h : l.getD v false = true) : (l.set i true).getD v false = true := by
  by_cases hv : i = v
  · subst hv
    by_cases hlt : i < l.length
    · rw [getD_set_self _ _ _ _ hlt]
    · rw [List.set_eq_of_length_le (by omega)]
      exact h
  · rw [getD_set_other _ _ _ _ _ hv]
    exact h

/-- The forced-pass step only turns in-cover flags on. -/
theorem forcedStep_ic_mono (S : Solver) (incl : List Bool) (st : P1St)
    (i : Nat) (v : Nat) (h : st.ic.getD v false = true) :
    (forcedStep S incl st i).ic.getD v false = true := by
  unfold forcedStep
  simp only
  split
  · split
    · exact getD_set_true_mono _ _ _ h
    · exact h
  · exact h

/-- Invariants of the forced pass for every fold length `m`: validity,
array lengths, the processed counts, and the flagging of forced
candidates. -/
theorem passForced_fold_spec (S : Solver) (incl : List Bool)
    (ic0 : List Bool) (cov0 : List Lit)
    (hrange : ∀ c ∈ S.clauses, ∀ l ∈ c, l.v < S.nVars)
    (hassigned : ∀ v, v < S.nVars → incl.getD v true = true →
      S.assigns v ≠ LB.u)
    (hIc0 : IcCov S incl ic0 cov0) (hlen0 : ic0.length = S.nVars) :
    ∀ m, m ≤ S.clauses.length →
      (IcCov S incl
        ((List.range m).foldl (forcedStep S incl)
          { ic := ic0, cov := cov0,
            cnt := List.replicate (S.clauses.length + 1) 0 }).ic
        ((List.range m).foldl (forcedStep S incl)
          { ic := ic0, cov := cov0,
            cnt := List.replicate (S.clauses.length + 1) 0 }).cov) ∧
      ((List.range m).foldl (forcedStep S incl)
          { ic := ic0, cov := cov0,
            cnt := List.replicate (S.clauses.length + 1) 0 }).ic.length
        = S.nVars ∧
      ((List.range m).foldl (forcedStep S incl)
          { ic := ic0, cov := cov0,
            cnt := List.replicate (S.clauses.length + 1) 0 }).cnt.length
        = S.clauses.length + 1 ∧
      (∀ i, ((List.range m).foldl (forcedStep S incl)
          { ic := ic0, cov := cov0,
            cnt := List.replicate (S.clauses.length + 1) 0 }).cnt.getD i 0
        = if i < m ∧ ForcedCl S incl (S.clauses.getD i []) then 1 else 0) ∧
      (∀ i < m, ForcedCl S incl (S.clauses.getD i []) →
        ((List.range m).foldl (forcedStep S incl)
          { ic := ic0, cov := cov0,
            cnt := List.replicate (S.clauses.length + 1) 0 }).ic.getD
          (forcedLit S incl (S.clauses.getD i [])).v false = true) := by
  intro m
  induction m with
  | zero =>
    intro _
    refine ⟨hIc0, hlen0, by simp, ?_, by omega⟩
    intro i
    simp only [List.range_zero, List.foldl_nil]
    rw [show ((List.replicate (S.clauses.length + 1) 0).getD i 0) = 0 from
      getD_replicate _ _ _]
    simp
  | succ m ih =>
    intro hm
    obtain ⟨ihIc, ihlen, ihclen, ihcnt, ihmark⟩ := ih (by omega)
    rw [List.range_succ, List.foldl_append, List.foldl_cons, List.foldl_nil]
    set stm := (List.range m).foldl (forcedStep S incl)
      { ic := ic0, cov := cov0,
        cnt := List.replicate (S.clauses.length + 1) 0 } with hstm
    by_cases hfor : ForcedCl S incl (S.clauses.getD m [])
    · have hcl : S.clauses.getD m [] ∈ S.clauses := by
        rw [List.getD_eq_getElem?_getD]
        have hmlt : m < S.clauses.length := by omega
        simp [List.getElem?_eq_getElem hmlt]
      obtain ⟨hplmem, hplf, hplincl⟩ := forcedLit_mem S incl _ hfor
      have hplv : (forcedLit S incl (S.clauses.getD m [])).v < S.nVars :=
        hrange _ hcl _ hplmem
      have hplt : S.value (forcedLit S incl (S.clauses.getD m [])) = LB.t :=
        value_true_of_ne_f S _ (hassigned _ hplv hplincl) hplf
      have hfor' : (scan1 S incl (S.clauses.getD m []) 0 none).1 = 1 := hfor
      by_cases hic : stm.ic.getD (forcedLit S incl (S.clauses.getD m [])).v
          false = true
      · have hfl : (scan1 S incl (S.clauses.getD m []) 0 none).2.getD default
            = forcedLit S incl (S.clauses.getD m []) := rfl
        have eqIc : (forcedStep S incl stm m).ic = stm.ic := by
          simp only [forcedStep]
          rw [if_pos hfor', hfl, if_neg (not_not_intro hic)]
        have eqCov : (forcedStep S incl stm m).cov = stm.cov := by
          simp only [forcedStep]
          rw [if_pos hfor', hfl, if_neg (not_not_intro hic)]
        have eqCnt : (forcedStep S incl stm m).cnt =
            stm.cnt.set m (stm.cnt.getD m 0 + 1) := by
          simp only [forcedStep]
          rw [if_pos hfor', hfl, if_neg (not_not_intro hic)]
        rw [eqIc, eqCov, eqCnt]
        refine ⟨ihIc, ihlen, by rw [List.length_set]; exact ihclen, ?_, ?_⟩
        · intro i
          by_cases hieq : i = m
          · subst hieq
            rw [getD_set_self _ _ _ _ (by rw [ihclen]; omega)]
            rw [ihcnt i]
            exact cnt_if_bump _ _ hfor
          · rw [getD_set_other _ _ _ _ _ (fun h => hieq h.symm)]
            rw [ihcnt i]
            exact cnt_if_keep m i _ hieq
        · intro i hi hfi
          by_cases him : i = m
          · subst him; exact hic
          · exact ihmark i (by omega) hfi
      · have hfl : (scan1 S incl (S.clauses.getD m []) 0 none).2.getD default
            = forcedLit S incl (S.clauses.getD m []) := rfl
        have eqIc : (forcedStep S incl stm m).ic =
            stm.ic.set (forcedLit S incl (S.clauses.getD m [])).v true := by
          simp only [forcedStep]
          rw [if_pos hfor', hfl, if_pos hic]
        have eqCov : (forcedStep S incl stm m).cov =
            stm.cov ++ [forcedLit S incl (S.clauses.getD m [])] := by
          simp only [forcedStep]
          rw [if_pos hfor', hfl, if_pos hic]
        have eqCnt : (forcedStep S incl stm m).cnt =
            stm.cnt.set m (stm.cnt.getD m 0 + 1) := by
          simp only [forcedStep]
          rw [if_pos hfor', hfl, if_pos hic]
        rw [eqIc, eqCov, eqCnt]
        obtain ⟨v1, v2, v3⟩ := ihIc
        refine ⟨⟨?_, ?_, ?_⟩, by rw [List.length_set]; exact ihlen,
          by rw [List.length_set]; exact ihclen, ?_, ?_⟩
        · intro l hl
          rcases List.mem_append.mp hl with hl | hl
          · exact v1 l hl
          · rw [List.mem_singleton.mp hl]; exact ⟨hplt, hplincl⟩
        · intro l hl
          rcases List.mem_append.mp hl with hl | hl
          · exact getD_set_true_mono _ _ _ (v2 l hl)
          · rw [List.mem_singleton.mp hl]
            rw [getD_set_self _ _ _ _ (by rw [ihlen]; exact hplv)]
        · intro v hv
          by_cases hveq : (forcedLit S incl (S.clauses.getD m [])).v = v
          · exact ⟨forcedLit S incl (S.clauses.getD m []), by simp, hveq⟩
          · rw [getD_set_other _ _ _ _ _ hveq] at hv
            obtain ⟨l, hl, hlv⟩ := v3 v hv
            exact ⟨l, by simp [hl], hlv⟩
        · intro i
          by_cases hieq : i = m
          · subst hieq
            rw [getD_set_self _ _ _ _ (by rw [ihclen]; omega)]
            rw [ihcnt i]
            exact cnt_if_bump _ _ hfor
          · rw [getD_set_other _ _ _ _ _ (fun h => hieq h.symm)]
            rw [ihcnt i]
            exact cnt_if_keep m i _ hieq
        · intro i hi hfi
          by_cases him : i = m
          · subst him
            rw [getD_set_self _ _ _ _ (by rw [ihlen]; exact hplv)]
          · exact getD_set_true_mono _ _ _ (ihmark i (by omega) hfi)
    · have hfor' : ¬((scan1 S incl (S.clauses.getD m []) 0 none).1 = 1) :=
        hfor
      have hstep : forcedStep S incl stm m = stm := by
        simp only [forcedStep]
        rw [if_neg hfor']
      rw [hstep]
      refine ⟨ihIc, ihlen, ihclen, ?_, ?_⟩
      · intro i
        rw [ihcnt i]
        by_cases hieq : i = m
        · subst hieq
          exact cnt_if_same_not _ _ hfor
        · exact cnt_if_keep m i _ hieq
      · intro i hi hfi
        by_cases him : i = m
        · subst him; exact absurd hfi hfor
        · exact ihmark i (by omega) hfi

/-- The clause step of the scoring pass factors through `scoreInner`. -/
theorem scoreStep_eq (S : Solver) (incl ic : List Bool) (st : P2St)
    (i : Nat) :
    scoreStep S incl ic st i =
      match scan2 S incl ic (S.clauses.getD i []) [] with
      | none => { st with cnt := st.cnt.set i (st.cnt.getD i 0 + 1) }
      | some unc => unc.foldl (scoreInner i) st := rfl

theorem count_append_one (a : List Nat) (i cl : Nat) :
    ((a ++ [i]).count cl) = a.count cl + (if cl = i then 1 else 0) := by
  rcases eq_or_ne cl i with h | h
  · subst h; simp [List.count_append]
  · rw [List.count_append]
    have h1 : [i].count cl = 0 := by
      simp [List.count_singleton]
      exact fun hh => h hh.symm
    rw [h1, if_neg h]

theorem scoreInner_cnt (i : Nat) (st : P2St) (l : Lit) :
    (scoreInner i st l).cnt = st.cnt := by
  simp only [scoreInner]
  by_cases h0 : st.score.getD l.v 0 = 0
  · rw [if_pos h0]
  · rw [if_neg h0]

theorem scoreInner_score (i : Nat) (st : P2St) (l : Lit) :
    (scoreInner i st l).score =
      st.score.set l.v (st.score.getD l.v 0 + 1) := by
  simp only [scoreInner]
  by_cases h0 : st.score.getD l.v 0 = 0
  · rw [if_pos h0]
  · rw [if_neg h0]

theorem scoreInner_lists (i : Nat) (st : P2St) (l : Lit) :
    (scoreInner i st l).lists =
      st.lists.set l.v (st.lists.getD l.v [] ++ [i]) := by
  simp only [scoreInner]
  by_cases h0 : st.score.getD l.v 0 = 0
  · rw [if_pos h0]
  · rw [if_neg h0]

theorem scoreInner_pot (i : Nat) (st : P2St) (l : Lit) :
    (scoreInner i st l).pot =
      if st.score.getD l.v 0 = 0 then st.pot ++ [l] else st.pot := by
  simp only [scoreInner]
  by_cases h0 : st.score.getD l.v 0 = 0
  · rw [if_pos h0, if_pos h0]
  · rw [if_neg h0, if_neg h0]

/-- After one inner step the stepped variable's score is nonzero and other
scores are unchanged. -/
theorem scoreInner_score_getD (i : Nat) (st : P2St) (l : Lit) (v : Nat)
    (hlen : l.v < st.score.length) :
    (scoreInner i st l).score.getD v 0 =
      if l.v = v then st.score.getD l.v 0 + 1 else st.score.getD v 0 := by
  rw [scoreInner_score]
  by_cases hv : l.v = v
  · subst hv; rw [getD_set_self _ _ _ _ hlen, if_pos rfl]
  · rw [getD_set_other _ _ _ _ _ hv, if_neg hv]

/-- Effect of the inner scoring fold over one clause's collected true
literals: counts are untouched, array lengths are preserved, each
variable's clause list gains one entry `i` per collected literal of that
variable, the score-candidate correspondence is preserved, and the
candidate list absorbs a representative of every collected literal's
variable. -/
theorem scoreInner_fold_spec (S : Solver) (i : Nat) (nV : Nat) :
    ∀ (unc : List Lit) (st : P2St),
      (∀ l ∈ unc, S.value l = LB.t ∧ l.v < nV) →
      st.score.length = nV → st.lists.length = nV →
      (∀ v < nV, st.score.getD v 0 = 0 ↔ ¬∃ l ∈ st.pot, l.v = v) →
      (∀ l ∈ st.pot, S.value l = LB.t) →
      ((st.pot.map Lit.v).Nodup) →
      ((unc.foldl (scoreInner i) st).cnt = st.cnt ∧
       (unc.foldl (scoreInner i) st).score.length = nV ∧
       (unc.foldl (scoreInner i) st).lists.length = nV ∧
       (∀ v < nV, ∀ cl,
          ((unc.foldl (scoreInner i) st).lists.getD v []).count cl =
          (st.lists.getD v []).count cl +
          (if cl = i then (unc.filter fun l => decide (l.v = v)).length
           else 0)) ∧
       (∀ v < nV, (unc.foldl (scoreInner i) st).score.getD v 0 = 0 ↔
          ¬∃ l ∈ (unc.foldl (scoreInner i) st).pot, l.v = v) ∧
       (((unc.foldl (scoreInner i) st).pot.map Lit.v).Nodup) ∧
       (∀ l ∈ (unc.foldl (scoreInner i) st).pot, S.value l = LB.t) ∧
       (∀ l ∈ (unc.foldl (scoreInner i) st).pot, l ∈ st.pot ∨ l ∈ unc) ∧
       (∀ l ∈ st.pot, l ∈ (unc.foldl (scoreInner i) st).pot) ∧
       (∀ l ∈ unc, ∃ l' ∈ (unc.foldl (scoreInner i) st).pot, l'.v = l.v)) := by
  intro unc
  induction unc with
  | nil =>
    intro st hunc hsl hll hiff hpt hnd
    refine ⟨rfl, hsl, hll, by simp, hiff, hnd, hpt, ?_, ?_, ?_⟩ <;> simp
  | cons l ls ih =>
    intro st hunc hsl hll hiff hpt hnd
    have hl := hunc l (by simp)
    have hls : ∀ m ∈ ls, S.value m = LB.t ∧ m.v < nV := fun m hm =>
      hunc m (by simp [hm])
    have hlvlen : l.v < st.score.length := by rw [hsl]; exact hl.2
    have hlvll : l.v < st.lists.length := by rw [hll]; exact hl.2
    set st1 := scoreInner i st l with hst1
    have hsl1 : st1.score.length = nV := by
      rw [hst1, scoreInner_score, List.length_set]; exact hsl
    have hll1 : st1.lists.length = nV := by
      rw [hst1, scoreInner_lists, List.length_set]; exact hll
    have hpt1 : ∀ m ∈ st1.pot, S.value m = LB.t := by
      intro m hm
      rw [hst1, scoreInner_pot] at hm
      by_cases h0 : st.score.getD l.v 0 = 0
      · rw [if_pos h0] at hm
        rcases List.mem_append.mp hm with hm | hm
        · exact hpt m hm
        · rw [List.mem_singleton.mp hm]; exact hl.1
      · rw [if_neg h0] at hm
        exact hpt m hm
    have hmem1 : ∀ m ∈ st.pot, m ∈ st1.pot := by
      intro m hm
      rw [hst1, scoreInner_pot]
      by_cases h0 : st.score.getD l.v 0 = 0
      · rw [if_pos h0]; exact List.mem_append.mpr (Or.inl hm)
      · rw [if_neg h0]; exact hm
    have hnd1 : (st1.pot.map Lit.v).Nodup := by
      rw [hst1, scoreInner_pot]
      by_cases h0 : st.score.getD l.v 0 = 0
      · rw [if_pos h0]
        rw [List.map_append, List.nodup_append]
        refine ⟨hnd, by simp, ?_⟩
        intro a ha hb
        simp only [List.map_cons, List.map_nil, List.mem_singleton] at hb
        subst hb
        rw [List.mem_map] at ha
        obtain ⟨m, hm, hmv⟩ := ha
        exact ((hiff l.v hl.2).mp h0) ⟨m, hm, hmv⟩
      · rw [if_neg h0]; exact hnd
    have hiff1 : ∀ v < nV, st1.score.getD v 0 = 0 ↔
        ¬∃ m ∈ st1.pot, m.v = v := by
      intro v hv
      rw [hst1, scoreInner_score_getD i st l v hlvlen, scoreInner_pot]
      by_cases hveq : l.v = v
      · subst hveq
        rw [if_pos rfl]
        constructor
        · intro h; omega
        · intro h
          exfalso
          by_cases h0 : st.score.getD l.v 0 = 0
          · rw [if_pos h0] at h
            exact h ⟨l, List.mem_append.mpr (Or.inr (by simp)), rfl⟩
          · rw [if_neg h0] at h
            have h1 := (not_iff_not.mpr (hiff l.v hl.2)).mp h0
            rw [not_not] at h1
            exact h h1
      · rw [if_neg hveq]
        rw [hiff v hv]
        by_cases h0 : st.score.getD l.v 0 = 0
        · rw [if_pos h0]
          constructor
          · intro h hc
            obtain ⟨m, hm, hmv⟩ := hc
            rcases List.mem_append.mp hm with hm | hm
            · exact h ⟨m, hm, hmv⟩
            · rw [List.mem_singleton.mp hm] at hmv
              exact hveq hmv
          · intro h hc
            obtain ⟨m, hm, hmv⟩ := hc
            exact h ⟨m, List.mem_append.mpr (Or.inl hm), hmv⟩
        · rw [if_neg h0]
      -- apply ih to st1
    obtain ⟨c1, c2, c3, c4, c5, c6, c7, c8, c9, c10⟩ :=
      ih st1 hls hsl1 hll1 hiff1 hpt1 hnd1
    rw [List.foldl_cons]
    refine ⟨by rw [c1, hst1, scoreInner_cnt], c2, c3, ?_, c5, c6, c7,
      ?_, ?_, ?_⟩
    · intro v hv cl
      rw [c4 v hv cl]
      rw [hst1, scoreInner_lists]
      by_cases hveq : l.v = v
      · subst hveq
        rw [getD_set_self _ _ _ _ hlvll]
        rw [count_append_one]
        have hfilter : (List.filter (fun m => decide (m.v = l.v)) (l :: ls))
            = l :: List.filter (fun m => decide (m.v = l.v)) ls := by
          simp [List.filter_cons]
        rw [hfilter]
        simp only [List.length_cons]
        by_cases hcl : cl = i
        · subst hcl
          rw [if_pos rfl, if_pos rfl, if_pos rfl]
          omega
        · rw [if_neg hcl, if_neg hcl, if_neg hcl]
      · rw [getD_set_other _ _ _ _ _ hveq]
        have hfilter : (List.filter (fun m => decide (m.v = v)) (l :: ls))
            = List.filter (fun m => decide (m.v = v)) ls := by
          simp [List.filter_cons, hveq]
        rw [hfilter]
    · intro m hm
      rcases c8 m hm with hm1 | hm1
      · rw [hst1, scoreInner_pot] at hm1
        by_cases h0 : st.score.getD l.v 0 = 0
        · rw [if_pos h0] at hm1
          rcases List.mem_append.mp hm1 with hm2 | hm2
          · exact Or.inl hm2
          · exact Or.inr (by simp [List.mem_singleton.mp hm2])
        · rw [if_neg h0] at hm1
          exact Or.inl hm1
      · exact Or.inr (by simp [hm1])
    · intro m hm
      exact c9 m (hmem1 m hm)
    · intro m hm
      rcases List.mem_cons.mp hm with heq | hmem
      · subst heq
        have hl1 : ∃ l' ∈ st1.pot, l'.v = m.v := by
          rw [hst1, scoreInner_pot]
          by_cases h0 : st.score.getD m.v 0 = 0
          · rw [if_pos h0]
            exact ⟨m, List.mem_append.mpr (Or.inr (by simp)), rfl⟩
          · have h1 := (not_iff_not.mpr (hiff m.v hl.2)).mp h0
            rw [not_not] at h1
            obtain ⟨l', hl', hlv'⟩ := h1
            rw [if_neg h0]
            exact ⟨l', hl', hlv'⟩
        obtain ⟨l', hl', hlv'⟩ := hl1
        exact ⟨l', c9 l' hl', hlv'⟩
      · exact c10 m hmem

theorem p2Fold_succ (S : Solver) (incl ic : List Bool) (cnt1 : List Nat)
    (m : Nat) :
    p2Fold S incl ic cnt1 (m + 1) =
      scoreStep S incl ic (p2Fold S incl ic cnt1 m) m := by
  rw [p2Fold, p2Fold, List.range_succ, List.foldl_append]
  rfl

theorem passScore_eq_p2Fold (S : Solver) (incl ic : List Bool)
    (cnt1 : List Nat) :
    passScore S incl ic cnt1 = p2Fold S incl ic cnt1 S.clauses.length := rfl

theorem mem_trueLits (S : Solver) (c : List Lit) (l : Lit) :
    l ∈ trueLits S c ↔ l ∈ c ∧ S.value l = LB.t := by
  simp [trueLits, List.mem_filter]

/-- A satisfied clause collects nothing. -/
theorem uncOf_sat (S : Solver) (incl ic : List Bool) (c : List Lit)
    (h : SatCl S incl ic c) : uncOf S incl ic c = [] := by
  unfold uncOf
  rw [h]
  rfl

/-- An unsatisfied clause collects exactly its true literals, and none of
its true literals is excluded or already covered. -/
theorem uncOf_not_sat (S : Solver) (incl ic : List Bool) (c : List Lit)
    (h : ¬SatCl S incl ic c) :
    uncOf S incl ic c = trueLits S c ∧
    ∀ l ∈ c, S.value l = LB.t →
      incl.getD l.v true = true ∧ ic.getD l.v false = false := by
  unfold SatCl at h
  rcases hs : scan2 S incl ic c [] with _ | res
  · exact absurd hs h
  · obtain ⟨h1, h2⟩ := scan2_some_spec S incl ic c [] res hs
    unfold uncOf
    rw [hs]
    simp only [List.nil_append] at h1
    exact ⟨by rw [Option.getD_some, h1], h2⟩

/-- Every collected literal is a true, included, not-yet-covered literal
of its clause. -/
theorem uncOf_mem_spec (S : Solver) (incl ic : List Bool) (c : List Lit)
    (l : Lit) (hl : l ∈ uncOf S incl ic c) :
    l ∈ c ∧ S.value l = LB.t ∧ incl.getD l.v true = true ∧
      ic.getD l.v false = false := by
  by_cases h : SatCl S incl ic c
  · rw [uncOf_sat S incl ic c h] at hl
    exact absurd hl (List.not_mem_nil l)
  · obtain ⟨h1, h2⟩ := uncOf_not_sat S incl ic c h
    rw [h1, mem_trueLits] at hl
    exact ⟨hl.1, hl.2, h2 l hl.1 hl.2⟩

theorem getD_mem_of_lt {α : Type} (L : List α) (m : Nat) (d : α)
    (h : m < L.length) : L.getD m d ∈ L := by
  rw [List.getD_eq_getElem?_getD, List.getElem?_eq_getElem h]
  exact List.getElem_mem h

/-- Arithmetic helper: extending the per-slot range by a slot of value
zero. -/
theorem if_lt_succ_zero (m cl : Nat) (X : Nat → Nat) (h : X m = 0) :
    (if cl < m then X cl else 0) = if cl < m + 1 then X cl else 0 := by
  by_cases hcl : cl = m
  · subst hcl
    rw [if_neg (Nat.lt_irrefl cl), if_pos (Nat.lt_succ_self cl), h]
  · by_cases hlt : cl < m
    · rw [if_pos hlt, if_pos (by omega)]
    · rw [if_neg hlt, if_neg (by omega)]

/-- Arithmetic helper: absorbing the step slot into the extended range. -/
theorem if_lt_succ_add (m cl : Nat) (X : Nat → Nat) :
    (if cl < m then X cl else 0) + (if cl = m then X m else 0) =
      if cl < m + 1 then X cl else 0 := by
  by_cases hcl : cl = m
  · subst hcl
    rw [if_neg (Nat.lt_irrefl cl), if_pos rfl, if_pos (Nat.lt_succ_self cl)]
    exact Nat.zero_add _
  · rw [if_neg hcl]
    by_cases hlt : cl < m
    · rw [if_pos hlt, if_pos (by omega)]
      exact Nat.add_zero _
    · rw [if_neg hlt, if_neg (by omega)]

/-- Invariants of the scoring pass after folding the first `m` clauses:
lengths, the satisfied-count bumps, the per-variable clause-list counts,
the score/candidate correspondence, distinct candidate variables, the
origin of every candidate, and a candidate for every collected
literal. -/
theorem p2Fold_spec (S : Solver) (incl ic : List Bool) (cnt1 : List Nat)
    (hrange : ∀ c ∈ S.clauses, ∀ l ∈ c, l.v < S.nVars)
    (hcl1 : cnt1.length = S.clauses.length + 1) :
    ∀ m, m ≤ S.clauses.length →
      (p2Fold S incl ic cnt1 m).cnt.length = cnt1.length ∧
      (p2Fold S incl ic cnt1 m).score.length = S.nVars ∧
      (p2Fold S incl ic cnt1 m).lists.length = S.nVars ∧
      (∀ i, (p2Fold S incl ic cnt1 m).cnt.getD i 0 = cnt1.getD i 0 +
        if i < m ∧ SatCl S incl ic (S.clauses.getD i []) then 1 else 0) ∧
      (∀ v < S.nVars, ∀ cl,
        ((p2Fold S incl ic cnt1 m).lists.getD v []).count cl =
        if cl < m then ((uncOf S incl ic (S.clauses.getD cl [])).filter
          fun l => decide (l.v = v)).length else 0) ∧
      (∀ v < S.nVars, (p2Fold S incl ic cnt1 m).score.getD v 0 = 0 ↔
        ¬∃ l ∈ (p2Fold S incl ic cnt1 m).pot, l.v = v) ∧
      (((p2Fold S incl ic cnt1 m).pot.map Lit.v).Nodup) ∧
      (∀ l ∈ (p2Fold S incl ic cnt1 m).pot,
        ∃ j < m, l ∈ uncOf S incl ic (S.clauses.getD j [])) ∧
      (∀ j < m, ∀ l ∈ uncOf S incl ic (S.clauses.getD j []),
        ∃ p ∈ (p2Fold S incl ic cnt1 m).pot, p.v = l.v) := by
  intro m
  induction m with
  | zero =>
    intro _
    refine ⟨rfl, by simp [p2Fold], by simp [p2Fold], ?_, ?_, ?_, ?_, ?_, ?_⟩
    · intro i; simp [p2Fold]
    · intro v hv cl
      have : (p2Fold S incl ic cnt1 0).lists.getD v [] = [] := by
        simp only [p2Fold, List.range_zero, List.foldl_nil]
        exact getD_replicate _ _ _
      rw [this]
      simp
    · intro v hv
      simp only [p2Fold, List.range_zero, List.foldl_nil]
      rw [getD_replicate]
      simp
    · simp [p2Fold]
    · simp [p2Fold]
    · intro j hj; omega
  | succ m ih =>
    intro hm
    obtain ⟨i1, i2, i3, i4, i5, i6, i7, i8, i9⟩ := ih (by omega)
    rw [p2Fold_succ]
    set st := p2Fold S incl ic cnt1 m with hst
    have hclm : S.clauses.getD m [] ∈ S.clauses :=
      getD_mem_of_lt _ _ _ (by omega)
    rcases hs : scan2 S incl ic (S.clauses.getD m []) [] with _ | unc
    · -- the clause is reported satisfied: only its count is bumped
      have hsat : SatCl S incl ic (S.clauses.getD m []) := hs
      have hect : scoreStep S incl ic st m =
          { st with cnt := st.cnt.set m (st.cnt.getD m 0 + 1) } := by
        rw [scoreStep_eq, hs]
      rw [hect]
      refine ⟨by rw [List.length_set]; exact i1, i2, i3, ?_, ?_, i6, i7,
        ?_, ?_⟩
      · intro i
        by_cases hieq : i = m
        · subst hieq
          rw [getD_set_self _ _ _ _ (by rw [i1, hcl1]; omega), i4 i]
          rw [Nat.add_assoc, cnt_if_bump i _ hsat]
        · rw [getD_set_other _ _ _ _ _ (fun h => hieq h.symm), i4 i]
          rw [cnt_if_keep m i _ hieq]
      · intro v hv cl
        rw [i5 v hv cl]
        refine if_lt_succ_zero m cl
          (fun c => ((uncOf S incl ic (S.clauses.getD c [])).filter
            fun l => decide (l.v = v)).length) ?_
        show ((uncOf S incl ic (S.clauses.getD m [])).filter
          fun l => decide (l.v = v)).length = 0
        rw [uncOf_sat _ _ _ _ hsat]
        rfl
      · intro l hl
        obtain ⟨j, hj, hju⟩ := i8 l hl
        exact ⟨j, by omega, hju⟩
      · intro j hj l hl
        by_cases hjm : j = m
        · subst hjm
          rw [uncOf_sat _ _ _ _ hsat] at hl
          exact absurd hl (List.not_mem_nil l)
        · exact i9 j (by omega) l hl
    · -- the clause is unsatisfied: its literals are scored
      have hnsat : ¬SatCl S incl ic (S.clauses.getD m []) := by
        unfold SatCl
        rw [hs]
        simp
      have huo : uncOf S incl ic (S.clauses.getD m []) = unc := by
        unfold uncOf
        rw [hs]
        rfl
      have hect : scoreStep S incl ic st m = unc.foldl (scoreInner m) st := by
        rw [scoreStep_eq, hs]
      rw [hect]
      have hunc : ∀ l ∈ unc, S.value l = LB.t ∧ l.v < S.nVars := by
        intro l hl
        have := uncOf_mem_spec S incl ic (S.clauses.getD m []) l
          (by rw [huo]; exact hl)
        exact ⟨this.2.1, hrange _ hclm l this.1⟩
      have hpt : ∀ l ∈ st.pot, S.value l = LB.t := by
        intro l hl
        obtain ⟨j, hj, hju⟩ := i8 l hl
        exact (uncOf_mem_spec S incl ic _ l hju).2.1
      obtain ⟨c1, c2, c3, c4, c5, c6, c7, c8, c9, c10⟩ :=
        scoreInner_fold_spec S m S.nVars unc st hunc i2 i3 i6 hpt i7
      refine ⟨by rw [c1]; exact i1, c2, c3, ?_, ?_, c5, c6, ?_, ?_⟩
      · intro i
        rw [c1, i4 i]
        by_cases hieq : i = m
        · subst hieq
          rw [cnt_if_same_not i _ hnsat]
        · rw [cnt_if_keep m i _ hieq]
      · intro v hv cl
        rw [c4 v hv cl, i5 v hv cl, ← huo]
        exact if_lt_succ_add m cl
          (fun c => ((uncOf S incl ic (S.clauses.getD c [])).filter
            fun l => decide (l.v = v)).length)
      · intro l hl
        rcases c8 l hl with hl1 | hl1
        · obtain ⟨j, hj, hju⟩ := i8 l hl1
          exact ⟨j, by omega, hju⟩
        · exact ⟨m, by omega, by rw [huo]; exact hl1⟩
      · intro j hj l hl
        by_cases hjm : j = m
        · subst hjm
          rw [huo] at hl
          exact c10 l hl
        · obtain ⟨p, hp, hpv⟩ := i9 j (by omega) l hl
          exact ⟨p, c9 p hp, hpv⟩

theorem sumCnt_nil (lists : List (List Nat)) (c : Nat) :
    sumCnt lists [] c = 0 := rfl

theorem sumCnt_cons (lists : List (List Nat)) (l : Lit) (L : List Lit)
    (c : Nat) :
    sumCnt lists (l :: L) c =
      (lists.getD l.v []).count c + sumCnt lists L c := by
  simp [sumCnt]

/-- Unfolding equations of the greedy pass, one per shape. -/
theorem pass3_none (lists : List (List Nat)) (numCl : Nat) (rem : List Lit)
    (i : Nat) (cnt : List Nat) (cov : List Lit)
    (hf : findUncov cnt numCl i = none) :
    pass3 lists numCl rem i cnt cov = (cnt, cov) := by
  rw [pass3.eq_1, hf]

theorem pass3_some_nil (lists : List (List Nat)) (numCl : Nat)
    (i : Nat) (cnt : List Nat) (cov : List Lit) (i' : Nat)
    (hf : findUncov cnt numCl i = some i') :
    pass3 lists numCl [] i cnt cov = (cnt, cov) := by
  rw [pass3.eq_1, hf]

theorem pass3_cons (lists : List (List Nat)) (numCl : Nat) (l : Lit)
    (rest : List Lit) (i : Nat) (cnt : List Nat) (cov : List Lit) (i' : Nat)
    (hf : findUncov cnt numCl i = some i') :
    pass3 lists numCl (l :: rest) i cnt cov =
      if ((lists.getD l.v []).all fun c => decide (cnt.getD c 0 ≠ 0)) = true
      then pass3 lists numCl rest i' cnt cov
      else pass3 lists numCl rest i'
        ((lists.getD l.v []).foldl
          (fun cn c => cn.set c (cn.getD c 0 + 1)) cnt)
        (cov ++ [l]) := by
  rw [pass3.eq_1, hf]

/-- A failed search means every clause from the start index on is
covered. -/
theorem findUncovGo_none_spec (cnt : List Nat) (numCl : Nat) :
    ∀ fuel i, numCl - i ≤ fuel → findUncovGo cnt numCl fuel i = none →
      ∀ c, i ≤ c → c < numCl → cnt.getD c 0 ≠ 0 := by
  intro fuel
  induction fuel with
  | zero =>
    intro i hk h c hc1 hc2
    omega
  | succ fuel ih =>
    intro i hk h c hc1 hc2
    have hi : i < numCl := by omega
    rw [findUncovGo, if_pos hi] at h
    by_cases hz : cnt.getD i 0 = 0
    · rw [if_pos hz] at h
      exact absurd h (by simp)
    · rw [if_neg hz] at h
      by_cases hc : c = i
      · subst hc; exact hz
      · exact ih (i + 1) (by omega) h c (by omega) hc2

theorem findUncov_none_spec (cnt : List Nat) (numCl : Nat) :
    ∀ k i, numCl - i ≤ k → findUncov cnt numCl i = none →
      ∀ c, i ≤ c → c < numCl → cnt.getD c 0 ≠ 0 := by
  intro _ i _ h
  exact findUncovGo_none_spec cnt numCl (numCl - i) i (Nat.le_refl _) h

/-- A successful search returns the first uncovered clause at or after
the start index. -/
theorem findUncovGo_some_spec (cnt : List Nat) (numCl : Nat) :
    ∀ fuel i i', numCl - i ≤ fuel → findUncovGo cnt numCl fuel i = some i' →
      i ≤ i' ∧ i' < numCl ∧ cnt.getD i' 0 = 0 ∧
      ∀ c, i ≤ c → c < i' → cnt.getD c 0 ≠ 0 := by
  intro fuel
  induction fuel with
  | zero =>
    intro i i' hk h
    rw [findUncovGo] at h
    exact absurd h (by simp)
  | succ fuel ih =>
    intro i i' hk h
    by_cases hi : i < numCl
    · rw [findUncovGo, if_pos hi] at h
      by_cases hz : cnt.getD i 0 = 0
      · rw [if_pos hz] at h
        have : i = i' := by simpa using h
        subst this
        exact ⟨Nat.le_refl i, hi, hz, fun c h1 h2 => by omega⟩
      · rw [if_neg hz] at h
        obtain ⟨g1, g2, g3, g4⟩ := ih (i + 1) i' (by omega) h
        refine ⟨by omega, g2, g3, ?_⟩
        intro c h1 h2
        by_cases hc : c = i
        · subst hc; exact hz
        · exact g4 c (by omega) h2
    · rw [findUncovGo, if_neg hi] at h
      exact absurd h (by simp)

theorem findUncov_some_spec (cnt : List Nat) (numCl : Nat) :
    ∀ k i i', numCl - i ≤ k → findUncov cnt numCl i = some i' →
      i ≤ i' ∧ i' < numCl ∧ cnt.getD i' 0 = 0 ∧
      ∀ c, i ≤ c → c < i' → cnt.getD c 0 ≠ 0 := by
  intro _ i i' _ h
  exact findUncovGo_some_spec cnt numCl (numCl - i) i i' (Nat.le_refl _) h

/-- The greedy pass: it consumes candidates in order, appends to the
cover exactly those whose clause list still holds an uncovered clause,
adds each appended candidate's list occurrences to the counts, and
terminates with every clause covered. -/
theorem pass3_spec (lists : List (List Nat)) (numCl : Nat)
    (hlr : ∀ (v : Nat), ∀ c ∈ lists.getD v [], c < numCl) :
    ∀ (rem : List Lit) (i : Nat) (cnt : List Nat) (cov : List Lit),
      cnt.length = numCl + 1 →
      (∀ c < numCl, c < i → cnt.getD c 0 ≠ 0) →
      (∀ c < numCl, cnt.getD c 0 = 0 → ∃ l ∈ rem, c ∈ lists.getD l.v []) →
      ∃ added : List Lit,
        added.Sublist rem ∧
        (pass3 lists numCl rem i cnt cov).2 = cov ++ added ∧
        (∀ c, (pass3 lists numCl rem i cnt cov).1.getD c 0 =
          cnt.getD c 0 + sumCnt lists added c) ∧
        (pass3 lists numCl rem i cnt cov).1.length = cnt.length ∧
        (∀ c < numCl, (pass3 lists numCl rem i cnt cov).1.getD c 0 ≠ 0) ∧
        (∀ l ∈ added, lists.getD l.v [] ≠ []) := by
  intro rem
  induction rem with
  | nil =>
    intro i cnt cov hclen hpref hcover
    rcases hf : findUncov cnt numCl i with _ | i'
    · rw [pass3_none lists numCl [] i cnt cov hf]
      refine ⟨[], List.nil_sublist _, by simp, ?_, rfl, ?_, by simp⟩
      · intro c; simp [sumCnt_nil]
      · intro c hc
        by_cases hci : c < i
        · exact hpref c hc hci
        · exact findUncov_none_spec cnt numCl numCl i (by omega) hf c
            (by omega) hc
    · obtain ⟨g1, g2, g3, g4⟩ := findUncov_some_spec cnt numCl numCl i i'
        (by omega) hf
      obtain ⟨l, hl, _⟩ := hcover i' g2 g3
      exact absurd hl (List.not_mem_nil l)
  | cons l rest ih =>
    intro i cnt cov hclen hpref hcover
    rcases hf : findUncov cnt numCl i with _ | i'
    · rw [pass3_none lists numCl (l :: rest) i cnt cov hf]
      refine ⟨[], List.nil_sublist _, by simp, ?_, rfl, ?_, by simp⟩
      · intro c; simp [sumCnt_nil]
      · intro c hc
        by_cases hci : c < i
        · exact hpref c hc hci
        · exact findUncov_none_spec cnt numCl numCl i (by omega) hf c
            (by omega) hc
    · rw [pass3_cons lists numCl l rest i cnt cov i' hf]
      obtain ⟨g1, g2, g3, g4⟩ := findUncov_some_spec cnt numCl numCl i i'
        (by omega) hf
      have hpref' : ∀ c < numCl, c < i' → cnt.getD c 0 ≠ 0 := by
        intro c hc hci
        by_cases hcl : c < i
        · exact hpref c hc hcl
        · exact g4 c (by omega) hci
      by_cases hskip : (lists.getD l.v []).all
          (fun c => decide (cnt.getD c 0 ≠ 0)) = true
      · rw [if_pos hskip]
        have hcover' : ∀ c < numCl, cnt.getD c 0 = 0 →
            ∃ m ∈ rest, c ∈ lists.getD m.v [] := by
          intro c hc hz
          obtain ⟨m, hm, hmc⟩ := hcover c hc hz
          rcases List.mem_cons.mp hm with heq | hmem
          · subst heq
            have hth := List.all_eq_true.mp hskip c hmc
            rw [decide_eq_true_eq] at hth
            exact absurd hz hth
          · exact ⟨m, hmem, hmc⟩
        obtain ⟨added, a1, a2, a3, a4, a5, a6⟩ :=
          ih i' cnt cov hclen hpref' hcover'
        exact ⟨added, a1.cons l, a2, a3, a4, a5, a6⟩
      · rw [if_neg hskip]
        set cnt' := (lists.getD l.v []).foldl
          (fun cn c => cn.set c (cn.getD c 0 + 1)) cnt with hcnt'
        have hblen : ∀ c ∈ lists.getD l.v [], c < cnt.length := by
          intro c hc
          have := hlr l.v c hc
          omega
        have hcnt'getD : ∀ c, cnt'.getD c 0 =
            cnt.getD c 0 + (lists.getD l.v []).count c := by
          intro c
          exact foldl_bump_getD _ cnt c hblen
        have hclen' : cnt'.length = numCl + 1 := by
          rw [hcnt', foldl_set_length]
          exact hclen
        have hpref'' : ∀ c < numCl, c < i' → cnt'.getD c 0 ≠ 0 := by
          intro c hc hci
          rw [hcnt'getD c]
          have := hpref' c hc hci
          omega
        have hcover'' : ∀ c < numCl, cnt'.getD c 0 = 0 →
            ∃ m ∈ rest, c ∈ lists.getD m.v [] := by
          intro c hc hz
          rw [hcnt'getD c] at hz
          have hz0 : cnt.getD c 0 = 0 := by omega
          have hcnt0 : (lists.getD l.v []).count c = 0 := by omega
          obtain ⟨m, hm, hmc⟩ := hcover c hc hz0
          rcases List.mem_cons.mp hm with heq | hmem
          · subst heq
            have := List.count_pos_iff.mpr hmc
            omega
          · exact ⟨m, hmem, hmc⟩
        obtain ⟨added, a1, a2, a3, a4, a5, a6⟩ :=
          ih i' cnt' (cov ++ [l]) hclen' hpref'' hcover''
        have hnonempty : lists.getD l.v [] ≠ [] := by
          have hna : ¬∀ c ∈ lists.getD l.v [],
              (decide (cnt.getD c 0 ≠ 0)) = true := by
            intro hall
            exact hskip (List.all_eq_true.mpr hall)
          push_neg at hna
          obtain ⟨c, hcm, _⟩ := hna
          exact List.ne_nil_of_mem hcm
        refine ⟨l :: added, a1.cons₂ l, ?_, ?_, ?_, a5, ?_⟩
        · rw [a2, List.append_assoc]
          rfl
        · intro c
          rw [a3 c, hcnt'getD c, sumCnt_cons]
          omega
        · rw [a4, hclen']
          exact hclen.symm
        · intro m hm
          rcases List.mem_cons.mp hm with heq | hmem
          · subst heq; exact hnonempty
          · exact a6 m hmem

/-- An essential count of one survives the rest of the pruning loop: a
later candidate whose list contains that clause fails the drop test, so
the slot is never decremented again. -/
theorem pruneLoop_preserve_one (lists : List (List Nat)) (numCl : Nat)
    (hlr : ∀ (v : Nat), ∀ c ∈ lists.getD v [], c < numCl) :
    ∀ (rem : List Lit) (cnt : List Nat) (kept : List Lit) (c : Nat),
      cnt.length = numCl + 1 →
      cnt.getD c 0 = 1 →
      (pruneLoop lists rem cnt kept).1.getD c 0 = 1 := by
  intro rem
  induction rem with
  | nil =>
    intro cnt kept c hclen h
    rw [pruneLoop.eq_1]
    exact h
  | cons l rest ih =>
    intro cnt kept c hclen h
    rw [pruneLoop.eq_2]
    by_cases hall : ((lists.getD l.v []).all
        fun x => decide (cnt.getD x 0 ≠ 1)) = true
    · rw [if_pos hall]
      have hblen : ∀ x ∈ lists.getD l.v [], x < cnt.length := by
        intro x hx
        have := hlr l.v x hx
        omega
      have hnot : c ∉ lists.getD l.v [] := by
        intro hc
        have := List.all_eq_true.mp hall c hc
        rw [decide_eq_true_eq] at this
        exact this h
      refine ih _ kept c ?_ ?_
      · rw [foldl_set_length]
        exact hclen
      · rw [foldl_decr_getD _ _ _ hblen, List.count_eq_zero.mpr hnot, h]
    · rw [if_neg hall]
      exact ih cnt (kept ++ [l]) c hclen h

/-- The sum of a mapped list dominates the value at a member. -/
theorem map_sum_ge_of_mem {α : Type} (f : α → Nat) :
    ∀ (L : List α) (a : α), a ∈ L → f a ≤ (L.map f).sum := by
  intro L
  induction L with
  | nil => intro a ha; exact absurd ha (List.not_mem_nil a)
  | cons x xs ih =>
    intro a ha
    rcases List.mem_cons.mp ha with heq | hmem
    · subst heq; simp
    · have := ih a hmem
      simp
      omega

/-- The sum of a mapped list dominates the values at two distinct
members. -/
theorem map_sum_ge_of_mem_pair {α : Type} (f : α → Nat) :
    ∀ (L : List α) (a b : α), a ∈ L → b ∈ L → a ≠ b →
      f a + f b ≤ (L.map f).sum := by
  intro L
  induction L with
  | nil => intro a b ha _ _; exact absurd ha (List.not_mem_nil a)
  | cons x xs ih =>
    intro a b ha hb hne
    rcases List.mem_cons.mp ha with hae | ham
    · subst hae
      have hbm : b ∈ xs := by
        rcases List.mem_cons.mp hb with hbe | hbm
        · exact absurd hbe.symm hne
        · exact hbm
      have := map_sum_ge_of_mem f xs b hbm
      simp
      omega
    · rcases List.mem_cons.mp hb with hbe | hbm
      · subst hbe
        have := map_sum_ge_of_mem f xs a ham
        simp
        omega
      · have := ih a b ham hbm hne
        simp
        omega

theorem sumCnt_ge_of_mem (lists : List (List Nat)) (L : List Lit) (l : Lit)
    (c : Nat) (hl : l ∈ L) :
    (lists.getD l.v []).count c ≤ sumCnt lists L c :=
  map_sum_ge_of_mem (fun m => (lists.getD m.v []).count c) L l hl

theorem sumCnt_ge_of_mem_pair (lists : List (List Nat)) (L : List Lit)
    (a b : Lit) (c : Nat) (ha : a ∈ L) (hb : b ∈ L) (hne : a ≠ b) :
    (lists.getD a.v []).count c + (lists.getD b.v []).count c ≤
      sumCnt lists L c :=
  map_sum_ge_of_mem_pair (fun m => (lists.getD m.v []).count c) L a b ha hb
    hne

/-- The pruning loop: it keeps an order-preserving selection of the
candidates, removes each dropped candidate's list occurrences from the
counts without underflow, and each kept candidate points at a clause
whose final count is exactly one. -/
theorem pruneLoop_spec (lists : List (List Nat)) (numCl : Nat)
    (hlr : ∀ (v : Nat), ∀ c ∈ lists.getD v [], c < numCl) :
    ∀ (rem : List Lit) (cnt : List Nat) (kept : List Lit),
      cnt.length = numCl + 1 →
      (∀ c, sumCnt lists rem c ≤ cnt.getD c 0) →
      ∃ keptNew : List Lit,
        keptNew.Sublist rem ∧
        (pruneLoop lists rem cnt kept).2 = kept ++ keptNew ∧
        (∀ c, (pruneLoop lists rem cnt kept).1.getD c 0 +
          sumCnt lists rem c = cnt.getD c 0 + sumCnt lists keptNew c) ∧
        (pruneLoop lists rem cnt kept).1.length = cnt.length ∧
        (∀ l ∈ keptNew, ∃ c ∈ lists.getD l.v [],
          (pruneLoop lists rem cnt kept).1.getD c 0 = 1) := by
  intro rem
  induction rem with
  | nil =>
    intro cnt kept hclen hdom
    rw [pruneLoop.eq_1]
    refine ⟨[], List.nil_sublist _, by simp, ?_, rfl, by simp⟩
    intro c
    simp [sumCnt]
  | cons l rest ih =>
    intro cnt kept hclen hdom
    rw [pruneLoop.eq_2]
    by_cases hall : ((lists.getD l.v []).all
        fun x => decide (cnt.getD x 0 ≠ 1)) = true
    · rw [if_pos hall]
      set cnt' := (lists.getD l.v []).foldl
        (fun cn c => cn.set c (cn.getD c 0 - 1)) cnt with hcnt'
      have hblen : ∀ c ∈ lists.getD l.v [], c < cnt.length := by
        intro c hc
        have := hlr l.v c hc
        omega
      have hgetD : ∀ c, cnt'.getD c 0 =
          cnt.getD c 0 - (lists.getD l.v []).count c := by
        intro c
        exact foldl_decr_getD _ cnt c hblen
      have hclen' : cnt'.length = numCl + 1 := by
        rw [hcnt', foldl_set_length]
        exact hclen
      have hdom' : ∀ c, sumCnt lists rest c ≤ cnt'.getD c 0 := by
        intro c
        rw [hgetD c]
        have := hdom c
        rw [sumCnt_cons] at this
        omega
      obtain ⟨keptNew, a1, a2, a3, a4, a5⟩ := ih cnt' kept hclen' hdom'
      refine ⟨keptNew, a1.cons l, a2, ?_, by rw [a4, hclen', hclen], a5⟩
      intro c
      have h3 := a3 c
      rw [hgetD c] at h3
      have hd := hdom c
      rw [sumCnt_cons] at hd ⊢
      omega
    · rw [if_neg hall]
      have hone : ∃ c ∈ lists.getD l.v [], cnt.getD c 0 = 1 := by
        have hna : ¬∀ c ∈ lists.getD l.v [],
            (decide (cnt.getD c 0 ≠ 1)) = true := by
          intro hforall
          exact hall (List.all_eq_true.mpr hforall)
        push_neg at hna
        obtain ⟨c, hcm, hcv⟩ := hna
        refine ⟨c, hcm, ?_⟩
        rcases hd : decide (cnt.getD c 0 ≠ 1) with _ | _
        · have := of_decide_eq_false hd
          omega
        · exact absurd hd hcv
      obtain ⟨keptNew, a1, a2, a3, a4, a5⟩ := ih cnt (kept ++ [l]) hclen
        (fun c => by
          have := hdom c
          rw [sumCnt_cons] at this
          omega)
      refine ⟨l :: keptNew, a1.cons₂ l, ?_, ?_, a4, ?_⟩
      · rw [a2, List.append_assoc]
        rfl
      · intro c
        have h3 := a3 c
        rw [sumCnt_cons, sumCnt_cons]
        omega
      · intro m hm
        rcases List.mem_cons.mp hm with heq | hmem
        · rw [heq]
          obtain ⟨c, hcm, hcv⟩ := hone
          exact ⟨c, hcm, pruneLoop_preserve_one lists numCl hlr rest cnt
            (kept ++ [l]) c hclen hcv⟩
        · exact a5 m hmem

/-- Under duplicate-free lists the pruning loop keeps every clause
covered: a drop needs counts of at least two on every touched slot. -/
theorem pruneLoop_ge_one (lists : List (List Nat)) (numCl : Nat)
    (hlr : ∀ (v : Nat), ∀ c ∈ lists.getD v [], c < numCl)
    (hle1 : ∀ (v : Nat) (c : Nat), (lists.getD v []).count c ≤ 1) :
    ∀ (rem : List Lit) (cnt : List Nat) (kept : List Lit),
      cnt.length = numCl + 1 →
      (∀ c < numCl, 1 ≤ cnt.getD c 0) →
      ∀ c < numCl, 1 ≤ (pruneLoop lists rem cnt kept).1.getD c 0 := by
  intro rem
  induction rem with
  | nil =>
    intro cnt kept hclen hge c hc
    rw [pruneLoop.eq_1]
    exact hge c hc
  | cons l rest ih =>
    intro cnt kept hclen hge c hc
    rw [pruneLoop.eq_2]
    by_cases hall : ((lists.getD l.v []).all
        fun x => decide (cnt.getD x 0 ≠ 1)) = true
    · rw [if_pos hall]
      set cnt' := (lists.getD l.v []).foldl
        (fun cn c => cn.set c (cn.getD c 0 - 1)) cnt with hcnt'
      have hblen : ∀ x ∈ lists.getD l.v [], x < cnt.length := by
        intro x hx
        have := hlr l.v x hx
        omega
      have hclen' : cnt'.length = numCl + 1 := by
        rw [hcnt', foldl_set_length]
        exact hclen
      refine ih cnt' kept hclen' ?_ c hc
      intro x hx
      rw [hcnt', foldl_decr_getD _ cnt x hblen]
      by_cases hmem : x ∈ lists.getD l.v []
      · have h2 : cnt.getD x 0 ≠ 1 := by
          have := List.all_eq_true.mp hall x hmem
          rw [decide_eq_true_eq] at this
          exact this
        have := hge x hx
        have := hle1 l.v x
        omega
      · rw [List.count_eq_zero.mpr hmem]
        have := hge x hx
        omega
    · rw [if_neg hall]
      exact ih cnt (kept ++ [l]) hclen hge c hc

/-- A list in which every value occurs zero times is empty. -/
theorem eq_nil_of_count_zero {α : Type} [DecidableEq α] (L : List α)
    (h : ∀ x : α, L.count x = 0) : L = [] := by
  cases L with
  | nil => rfl
  | cons x xs =>
    have := h x
    rw [List.count_cons] at this
    simp at this

/-- A duplicate-free list whose elements are pairwise equal has at most
one element. -/
theorem length_le_one_of_nodup_allEq {α : Type} (L : List α)
    (hnd : L.Nodup) (heq : ∀ x ∈ L, ∀ y ∈ L, x = y) : L.length ≤ 1 := by
  cases L with
  | nil => simp
  | cons x xs =>
    cases xs with
    | nil => simp
    | cons y ys =>
      exfalso
      have hxy : x = y := heq x (by simp) y (by simp)
      subst hxy
      simp at hnd

/-- Splitting an append at the boundary of a satisfied prefix. -/
theorem takeWhile_dropWhile_append {α : Type} (p : α → Bool) :
    ∀ (A B : List α), (∀ x ∈ A, p x = true) → (∀ x ∈ B, p x = false) →
      (A ++ B).takeWhile p = A ∧ (A ++ B).dropWhile p = B := by
  intro A
  induction A with
  | nil =>
    intro B h1 h2
    cases B with
    | nil => simp
    | cons b bs =>
      rw [List.nil_append, List.takeWhile_cons, List.dropWhile_cons,
        h2 b (by simp)]
      simp
  | cons a as ih =>
    intro B h1 h2
    have hpa : p a = true := h1 a (by simp)
    obtain ⟨g1, g2⟩ := ih B (fun x hx => h1 x (by simp [hx])) h2
    rw [List.cons_append, List.takeWhile_cons, List.dropWhile_cons, hpa]
    rw [if_pos rfl, if_pos rfl]
    exact ⟨by rw [g1], g2⟩

/-- Reading past the end of a list yields the default. -/
theorem getD_out_of_range {α : Type} (L : List α) (v : Nat) (d : α)
    (h : L.length ≤ v) : L.getD v d = d := by
  rw [List.getD_eq_getElem?_getD, List.getElem?_eq_none (by simpa using h)]
  rfl

/-- A nonzero mapped sum has a nonzero member. -/
theorem map_sum_pos {α : Type} (f : α → Nat) :
    ∀ (L : List α), (L.map f).sum ≠ 0 → ∃ a ∈ L, f a ≠ 0 := by
  intro L
  induction L with
  | nil => intro h; simp at h
  | cons x xs ih =>
    intro h
    by_cases hx : f x = 0
    · have hxs : (xs.map f).sum ≠ 0 := by
        simp only [List.map_cons, List.sum_cons, hx] at h
        simpa using h
      obtain ⟨a, ha, hfa⟩ := ih hxs
      exact ⟨a, by simp [ha], hfa⟩
    · exact ⟨x, by simp, hx⟩

theorem sumCnt_pos (lists : List (List Nat)) (L : List Lit) (c : Nat)
    (h : sumCnt lists L c ≠ 0) :
    ∃ l ∈ L, (lists.getD l.v []).count c ≠ 0 := by
  unfold sumCnt at h
  exact map_sum_pos _ L h

/-- The exact-mode result decomposes through the pipeline stages. -/
theorem getCover_exact_eq (S : Solver) (st : CoverSt) :
    (getCover S false st).2 =
      ((coverR3 S st).2.takeWhile
        fun l => ((coverP2 S st).lists.getD l.v []).isEmpty) ++
      (coverPrune S st).2 := rfl

/-- Facts established by the trail and forced passes: the cover-validity
invariant, the array lengths, the per-clause counts and the flags of the
forced candidates. -/
theorem coverP1_facts (S : Solver) (st : CoverSt)
    (hrange : ∀ c ∈ S.clauses, ∀ l ∈ c, l.v < S.nVars)
    (hassigned : ∀ v, v < S.nVars →
      (coverIncl S st).getD v true = true → S.assigns v ≠ LB.u)
    (htrail : ∀ l ∈ trailPref S, S.value l = LB.t ∧ l.v < S.nVars) :
    IcCov S (coverIncl S st) (coverP1 S st).ic (coverP1 S st).cov ∧
    (coverP1 S st).ic.length = S.nVars ∧
    (coverP1 S st).cnt.length = S.clauses.length + 1 ∧
    (∀ i, (coverP1 S st).cnt.getD i 0 =
      if i < S.clauses.length ∧
        ForcedCl S (coverIncl S st) (S.clauses.getD i []) then 1 else 0) ∧
    (∀ i < S.clauses.length,
      ForcedCl S (coverIncl S st) (S.clauses.getD i []) →
      (coverP1 S st).ic.getD
        (forcedLit S (coverIncl S st) (S.clauses.getD i [])).v false
        = true) := by
  obtain ⟨hIc0, hlen0⟩ := passTrail_spec S (coverIncl S st) htrail
  have h := passForced_fold_spec S (coverIncl S st)
    (passTrail S (coverIncl S st)).1 (passTrail S (coverIncl S st)).2
    hrange hassigned hIc0 hlen0 S.clauses.length (Nat.le_refl _)
  rw [← passForced_eq] at h
  have hc1 : coverP1 S st = passForced S (coverIncl S st)
      (passTrail S (coverIncl S st)).1 (passTrail S (coverIncl S st)).2 :=
    rfl
  rw [← hc1] at h
  exact ⟨h.1, h.2.1, h.2.2.1, h.2.2.2.1, h.2.2.2.2⟩

/-- Facts established by the scoring pass of the pipeline. -/
theorem coverP2_facts (S : Solver) (st : CoverSt)
    (hrange : ∀ c ∈ S.clauses, ∀ l ∈ c, l.v < S.nVars)
    (hassigned : ∀ v, v < S.nVars →
      (coverIncl S st).getD v true = true → S.assigns v ≠ LB.u)
    (htrail : ∀ l ∈ trailPref S, S.value l = LB.t ∧ l.v < S.nVars) :
    (coverP2 S st).cnt.length = S.clauses.length + 1 ∧
    (coverP2 S st).score.length = S.nVars ∧
    (coverP2 S st).lists.length = S.nVars ∧
    (∀ i, (coverP2 S st).cnt.getD i 0 = (coverP1 S st).cnt.getD i 0 +
      if i < S.clauses.length ∧
        SatCl S (coverIncl S st) (coverP1 S st).ic (S.clauses.getD i [])
      then 1 else 0) ∧
    (∀ v < S.nVars, ∀ cl, ((coverP2 S st).lists.getD v []).count cl =
      if cl < S.clauses.length then
        ((uncOf S (coverIncl S st) (coverP1 S st).ic
          (S.clauses.getD cl [])).filter fun l => decide (l.v = v)).length
      else 0) ∧
    (((coverP2 S st).pot.map Lit.v).Nodup) ∧
    (∀ l ∈ (coverP2 S st).pot, ∃ j < S.clauses.length,
      l ∈ uncOf S (coverIncl S st) (coverP1 S st).ic (S.clauses.getD j [])) ∧
    (∀ j < S.clauses.length,
      ∀ l ∈ uncOf S (coverIncl S st) (coverP1 S st).ic
        (S.clauses.getD j []),
      ∃ p ∈ (coverP2 S st).pot, p.v = l.v) := by
  have hcl1 : (coverP1 S st).cnt.length = S.clauses.length + 1 :=
    (coverP1_facts S st hrange hassigned htrail).2.2.1
  have h := p2Fold_spec S (coverIncl S st) (coverP1 S st).ic
    (coverP1 S st).cnt hrange hcl1 S.clauses.length (Nat.le_refl _)
  rw [← passScore_eq_p2Fold] at h
  have hc2 : coverP2 S st = passScore S (coverIncl S st) (coverP1 S st).ic
      (coverP1 S st).cnt := rfl
  rw [← hc2] at h
  obtain ⟨i1, i2, i3, i4, i5, i6, i7, i8, i9⟩ := h
  refine ⟨by rw [i1, hcl1], i2, i3, i4, i5, i7, i8, i9⟩

/-- Facts about the clause-index lists: their entries are clause indices,
membership certifies a collected literal of the variable, and variables
already covered after the forced pass have empty lists. -/
theorem coverLists_facts (S : Solver) (st : CoverSt)
    (hrange : ∀ c ∈ S.clauses, ∀ l ∈ c, l.v < S.nVars)
    (hassigned : ∀ v, v < S.nVars →
      (coverIncl S st).getD v true = true → S.assigns v ≠ LB.u)
    (htrail : ∀ l ∈ trailPref S, S.value l = LB.t ∧ l.v < S.nVars) :
    (∀ (v : Nat), ∀ c ∈ (coverP2 S st).lists.getD v [],
      c < S.clauses.length) ∧
    (∀ v < S.nVars, ∀ c, (c ∈ (coverP2 S st).lists.getD v [] ↔
      c < S.clauses.length ∧
      ∃ m ∈ uncOf S (coverIncl S st) (coverP1 S st).ic
        (S.clauses.getD c []), m.v = v)) ∧
    (∀ v, (coverP1 S st).ic.getD v false = true →
      (coverP2 S st).lists.getD v [] = []) := by
  obtain ⟨p1, p2, p3, p4, p5, p6, p7, p8⟩ :=
    coverP2_facts S st hrange hassigned htrail
  have hcount : ∀ v < S.nVars, ∀ c,
      ((coverP2 S st).lists.getD v []).count c =
      if c < S.clauses.length then
        ((uncOf S (coverIncl S st) (coverP1 S st).ic
          (S.clauses.getD c [])).filter fun l => decide (l.v = v)).length
      else 0 := p5
  have hmem : ∀ v < S.nVars, ∀ c, (c ∈ (coverP2 S st).lists.getD v [] ↔
      c < S.clauses.length ∧
      ∃ m ∈ uncOf S (coverIncl S st) (coverP1 S st).ic
        (S.clauses.getD c []), m.v = v) := by
    intro v hv c
    rw [← List.count_pos_iff, hcount v hv c]
    by_cases hc : c < S.clauses.length
    · rw [if_pos hc]
      rw [List.length_pos_iff_exists_mem]
      constructor
      · rintro ⟨m, hm⟩
        rw [List.mem_filter] at hm
        exact ⟨hc, m, hm.1, by simpa using hm.2⟩
      · rintro ⟨_, m, hm, hmv⟩
        exact ⟨m, List.mem_filter.mpr ⟨hm, by simpa using hmv⟩⟩
    · rw [if_neg hc]
      simp [hc]
  refine ⟨?_, hmem, ?_⟩
  · intro v c hc
    by_cases hv : v < S.nVars
    · exact ((hmem v hv c).mp hc).1
    · rw [getD_out_of_range _ _ _ (by rw [p3]; omega)] at hc
      exact absurd hc (List.not_mem_nil c)
  · intro v hic
    by_cases hv : v < S.nVars
    · refine eq_nil_of_count_zero _ ?_
      intro c
      rw [hcount v hv c]
      by_cases hc : c < S.clauses.length
      · rw [if_pos hc]
        rw [List.length_eq_zero]
        by_contra hne
        obtain ⟨m, hm⟩ := List.length_pos_iff_exists_mem.mp
          (Nat.pos_of_ne_zero (fun h0 => hne (List.length_eq_zero.mp h0)))
        rw [List.mem_filter] at hm
        have hms := uncOf_mem_spec S (coverIncl S st) (coverP1 S st).ic
          (S.clauses.getD c []) m hm.1
        have : m.v = v := by simpa using hm.2
        rw [this] at hms
        rw [hms.2.2.2] at hic
        exact Bool.false_ne_true hic
      · rw [if_neg hc]
    · exact getD_out_of_range _ _ _ (by rw [p3]; omega)

/-- Membership is preserved by the stable insertion. -/
theorem insertDesc_mem (score : List Nat) (l : Lit) :
    ∀ (L : List Lit) (x : Lit), x ∈ insertDesc score l L ↔
      x = l ∨ x ∈ L := by
  intro L
  induction L with
  | nil =>
    intro x
    simp [insertDesc]
  | cons y ys ih =>
    intro x
    rw [insertDesc]
    by_cases h : score.getD y.v 0 < score.getD l.v 0
    · rw [if_pos h]
      simp
    · rw [if_neg h]
      simp only [List.mem_cons, ih x]
      tauto

/-- The sorted candidate list holds exactly the candidates. -/
theorem sortPot_mem (score : List Nat) (pot : List Lit) :
    ∀ x : Lit, x ∈ sortPot score pot ↔ x ∈ pot := by
  unfold sortPot
  induction pot with
  | nil => intro x; simp
  | cons y ys ih =>
    intro x
    rw [List.foldr_cons, insertDesc_mem]
    simp only [List.mem_cons, ih x]

/-- Assembly of the exact-mode pipeline: the returned cover is the forced
cover followed by a kept selection `K` of scored candidates, the final
counts decompose into the forced, satisfied and kept contributions, every
kept candidate points at a clause it covers alone, and (for
duplicate-free clauses) every clause keeps a positive count. -/
theorem cover_exact_main (S : Solver) (st : CoverSt)
    (hrange : ∀ c ∈ S.clauses, ∀ l ∈ c, l.v < S.nVars)
    (hassigned : ∀ v, v < S.nVars →
      (coverIncl S st).getD v true = true → S.assigns v ≠ LB.u)
    (htrail : ∀ l ∈ trailPref S, S.value l = LB.t ∧ l.v < S.nVars)
    (hsat : ∀ c ∈ S.clauses, ∃ l ∈ c, S.value l = LB.t) :
    ∃ K : List Lit,
      (getCover S false st).2 = (coverP1 S st).cov ++ K ∧
      (∀ l ∈ K, l ∈ (coverP2 S st).pot) ∧
      (∀ c, (coverPrune S st).1.getD c 0 =
        (if c < S.clauses.length ∧
            ForcedCl S (coverIncl S st) (S.clauses.getD c [])
         then 1 else 0) +
        ((if c < S.clauses.length ∧
            SatCl S (coverIncl S st) (coverP1 S st).ic (S.clauses.getD c [])
          then 1 else 0) +
          sumCnt (coverP2 S st).lists K c)) ∧
      (∀ l ∈ K, ∃ c ∈ (coverP2 S st).lists.getD l.v [],
        (coverPrune S st).1.getD c 0 = 1) ∧
      (∀ l ∈ K, (coverP2 S st).lists.getD l.v [] ≠ []) ∧
      ((∀ c ∈ S.clauses, c.Nodup) →
        ∀ c < S.clauses.length, 1 ≤ (coverPrune S st).1.getD c 0) := by
  obtain ⟨hIcCov, hicl, hcl1, hp1cnt, hmark⟩ :=
    coverP1_facts S st hrange hassigned htrail
  obtain ⟨p1, p2, p3, p4, p5, p6, p7, p8⟩ :=
    coverP2_facts S st hrange hassigned htrail
  obtain ⟨hlr, hmem, hempty⟩ := coverLists_facts S st hrange hassigned htrail
  set rem0 := sortPot (coverP2 S st).score (coverP2 S st).pot with hrem0def
  have hrem0mem : ∀ l : Lit, l ∈ rem0 ↔ l ∈ (coverP2 S st).pot := by
    intro l
    rw [hrem0def]
    exact sortPot_mem _ _ l
  have hcover0 : ∀ c < S.clauses.length, (coverP2 S st).cnt.getD c 0 = 0 →
      ∃ l ∈ rem0, c ∈ (coverP2 S st).lists.getD l.v [] := by
    intro c hc hz
    rw [p4 c, hp1cnt c] at hz
    have hnS : ¬SatCl S (coverIncl S st) (coverP1 S st).ic
        (S.clauses.getD c []) := by
      intro hS
      have h1 : (if c < S.clauses.length ∧
          SatCl S (coverIncl S st) (coverP1 S st).ic (S.clauses.getD c [])
          then (1 : Nat) else 0) = 1 := if_pos ⟨hc, hS⟩
      rw [h1] at hz
      omega
    have hclm : S.clauses.getD c [] ∈ S.clauses :=
      getD_mem_of_lt _ _ _ hc
    obtain ⟨lt, hlt, hltv⟩ := hsat _ hclm
    obtain ⟨huo, _⟩ := uncOf_not_sat S (coverIncl S st) (coverP1 S st).ic
      (S.clauses.getD c []) hnS
    have hltu : lt ∈ uncOf S (coverIncl S st) (coverP1 S st).ic
        (S.clauses.getD c []) := by
      rw [huo]
      exact (mem_trueLits S _ lt).mpr ⟨hlt, hltv⟩
    obtain ⟨p, hp, hpv⟩ := p8 c hc lt hltu
    have hpvlt : p.v < S.nVars := by
      rw [hpv]
      exact hrange _ hclm lt hlt
    refine ⟨p, (hrem0mem p).mpr hp, ?_⟩
    exact (hmem p.v hpvlt c).mpr ⟨hc, lt, hltu, hpv.symm⟩
  obtain ⟨added, a1, a2, a3, a4, a5, a6⟩ := pass3_spec (coverP2 S st).lists
    S.clauses.length hlr rem0 0 (coverP2 S st).cnt (coverP1 S st).cov p1
    (fun c _ h0 => absurd h0 (Nat.not_lt_zero c)) hcover0
  have hr3 : coverR3 S st = pass3 (coverP2 S st).lists S.clauses.length
      rem0 0 (coverP2 S st).cnt (coverP1 S st).cov := by
    rw [hrem0def]
    rfl
  rw [← hr3] at a2 a3 a4 a5
  have hcovempty : ∀ x ∈ (coverP1 S st).cov,
      (((coverP2 S st).lists.getD x.v []).isEmpty) = true := by
    intro x hx
    rw [hempty x.v (hIcCov.2.1 x hx)]
    rfl
  have haddedne : ∀ x ∈ added,
      (((coverP2 S st).lists.getD x.v []).isEmpty) = false := by
    intro x hx
    exact Bool.eq_false_iff.mpr
      (fun h => a6 x hx (List.isEmpty_iff.mp h))
  obtain ⟨hlead, hrest⟩ := takeWhile_dropWhile_append
    (fun l => ((coverP2 S st).lists.getD l.v []).isEmpty)
    (coverP1 S st).cov added hcovempty haddedne
  rw [← a2] at hlead hrest
  have hpr : coverPrune S st = pruneLoop (coverP2 S st).lists added
      (coverR3 S st).1 [] := by
    unfold coverPrune
    rw [hrest]
  obtain ⟨K, k1, k2, k3, k4, k5⟩ := pruneLoop_spec (coverP2 S st).lists
    S.clauses.length hlr added (coverR3 S st).1 []
    (by rw [a4, p1]) (fun c => by rw [a3 c]; omega)
  rw [← hpr] at k2 k3 k4 k5
  have hKpot : ∀ l ∈ K, l ∈ (coverP2 S st).pot := by
    intro l hl
    exact (hrem0mem l).mp (a1.subset (k1.subset hl))
  refine ⟨K, ?_, hKpot, ?_, k5, ?_, ?_⟩
  · rw [getCover_exact_eq, hlead, k2]
    simp
  · intro c
    have h3 := k3 c
    have h4 := a3 c
    rw [p4 c, hp1cnt c] at h4
    omega
  · intro l hl
    exact a6 l (k1.subset hl)
  · intro hnodup c hc
    have hle1 : ∀ (v c' : Nat),
        ((coverP2 S st).lists.getD v []).count c' ≤ 1 := by
      intro v c'
      by_cases hv : v < S.nVars
      · rw [p5 v hv c']
        by_cases hc' : c' < S.clauses.length
        · rw [if_pos hc']
          by_cases hS : SatCl S (coverIncl S st) (coverP1 S st).ic
              (S.clauses.getD c' [])
          · rw [uncOf_sat _ _ _ _ hS]
            simp
          · obtain ⟨huo, _⟩ := uncOf_not_sat S (coverIncl S st)
              (coverP1 S st).ic (S.clauses.getD c' []) hS
            rw [huo]
            have hndc : (S.clauses.getD c' []).Nodup :=
              hnodup _ (getD_mem_of_lt _ _ _ hc')
            have hndt : (trueLits S (S.clauses.getD c' [])).Nodup :=
              hndc.filter _
            refine length_le_one_of_nodup_allEq _ (hndt.filter _) ?_
            intro x hx y hy
            rw [List.mem_filter] at hx hy
            have hxv : S.value x = LB.t :=
              ((mem_trueLits S _ x).mp hx.1).2
            have hyv : S.value y = LB.t :=
              ((mem_trueLits S _ y).mp hy.1).2
            refine value_true_unique S x y hxv hyv ?_
            have hx2 : x.v = v := by simpa using hx.2
            have hy2 : y.v = v := by simpa using hy.2
            rw [hx2, hy2]
        · rw [if_neg hc']
          omega
      · rw [getD_out_of_range _ _ _ (by rw [p3]; omega)]
        simp
    have hge := pruneLoop_ge_one (coverP2 S st).lists S.clauses.length hlr
      hle1 added (coverR3 S st).1 [] (by rw [a4, p1])
      (fun c' hc' => by have := a5 c' hc'; omega) c hc
    rw [← hpr] at hge
    exact hge

/-- A member of a list is read back by `getD` at some index. -/
theorem mem_getD_index {α : Type} (L : List α) (c : α) (d : α)
    (h : c ∈ L) : ∃ i < L.length, L.getD i d = c := by
  obtain ⟨i, hi, hieq⟩ := List.mem_iff_getElem.mp h
  refine ⟨i, hi, ?_⟩
  rw [List.getD_eq_getElem?_getD, List.getElem?_eq_getElem hi]
  exact hieq

end CoverM

/-- C1: the dynamic engine does not always agree with a from-scratch
Edmonds-Karp run on the currently enabled subgraph.  On the bug-witness
graph the first call returns 3; after edge 1→3 is disabled, the
incremental-replay call returns 3, while a fresh engine (which takes the
source's own full-recompute path, i.e. from-scratch Edmonds-Karp on the
enabled subgraph) returns 2.  During the repair the shortcut augmentation
pushes one unit of flow onto the edge 1→0 into the source, and the
`needsReflow` recount sums only the edges leaving the source, overcounting
the flow value. -/
theorem C1_incremental_replay_diverges_from_scratch :
    (EKD.maxFlow EKD.graphB EKD.capB 0 3 EKD.initState).1 = 3 ∧
    (EKD.maxFlow EKD.graphB2 EKD.capB 0 3 EKD.stateB1).1 = 3 ∧
    (EKD.maxFlow EKD.graphB2 EKD.capB 0 3 EKD.initState).1 = 2 := by
  decide

/-- C2 counterexample: on flow scenario A, after edge 1→3 is disabled the
next `maxFlow(0,3)` call returns 3, not the 4 claimed (the only remaining
edge into node 3 has capacity 3, so no flow of 4 exists). -/
theorem C2_second_call_not_four :
    (EKD.maxFlow EKD.graphA2 EKD.capA 0 3 EKD.stateA1).1 ≠ 4 := by
  decide

/-- C2 (amended): on flow scenario A, `maxFlow(0,3)` returns 5, and after
edge 1→3 is disabled the next `maxFlow(0,3)` returns 3. -/
theorem C2_scenario_A_values :
    (EKD.maxFlow EKD.graphA EKD.capA 0 3 EKD.initState).1 = 5 ∧
    (EKD.maxFlow EKD.graphA2 EKD.capA 0 3 EKD.stateA1).1 = 3 := by
  decide

/-- C3 counterexample: on scenario A's initial graph, `minCut(0,3,cut)`
does not return the claimed cut set.  The reachability search from the
source stops at the two saturated source edges, so the returned cut is
the source-side cut; in particular the claimed element 1→2 (id 2) is not
in it. -/
theorem C3_cut_not_as_claimed :
    (EKD.minCut EKD.graphA EKD.capA 0 3 EKD.initState []).2.2 ≠
      [⟨0, 2, 1⟩, ⟨1, 2, 2⟩, ⟨1, 3, 3⟩] := by
  decide

/-- C3 (amended): on scenario A's initial graph, `minCut(0,3,cut)` fills
the cut with exactly the edges 0→1 (id 0, capacity 3) and 0→2 (id 1,
capacity 2), whose capacities total 5, and returns 5. -/
theorem C3_cut_value :
    (EKD.minCut EKD.graphA EKD.capA 0 3 EKD.initState []).2.2 =
      [⟨0, 1, 0⟩, ⟨0, 2, 1⟩] ∧
    (EKD.minCut EKD.graphA EKD.capA 0 3 EKD.initState []).1 = 5 ∧
    EKD.capA.getD 0 0 + EKD.capA.getD 1 0 = 5 := by
  decide

/-- C6: `minCut` does not always return a cut whose capacities sum to the
returned flow value.  After the buggy incremental call on the bug-witness
graph (cached flow 3), `minCut(0,3,[])` returns 3 but the returned cut is
the single edge 0→2 of capacity 2; the source's own debug assertion
`dbg_sum == f` fails here. -/
theorem C6_cut_sum_mismatch :
    (EKD.minCut EKD.graphB2 EKD.capB 0 3 EKD.stateB2 []).1 = 3 ∧
    (EKD.minCut EKD.graphB2 EKD.capB 0 3 EKD.stateB2 []).2.2 =
      [⟨0, 2, 3⟩] ∧
    EKD.capB.getD 3 0 = 2 := by
  decide

/-- C10: `minCut` never clears its out-parameter: on scenario A with a
pre-filled cut vector containing the stale entry (0, 3, 99) — not an edge
of the graph at all — the returned vector still contains that entry,
followed by the edges found by this call. -/
theorem C10_stale_cut_entries_survive :
    (EKD.minCut EKD.graphA EKD.capA 0 3 EKD.initState [⟨0, 3, 99⟩]).2.2 =
      [⟨0, 3, 99⟩, ⟨0, 1, 0⟩, ⟨0, 2, 1⟩] ∧
    ∀ e ∈ EKD.graphA.edgesArr, ¬(e = ⟨0, 3⟩) := by
  decide

/-- C4 counterexample: on flow scenario A's deletion of edge 1→3 the
engine's behaviour differs from the claim's description.  The engine
(shortcut arc from the global source 0 to the global sink 3) returns 3
and ends with flow 1 on edge 0→1; the claim's mechanism (shortcut arc
from u = 1 to v = 3) would return 5 and leave flow 3 on edge 0→1.  So the
claim, which says the shortcut arc goes from u to v, is false of the
code. -/
theorem C4_shortcut_arc_is_not_u_to_v :
    (EKD.maxFlow EKD.graphA2 EKD.capA 0 3 EKD.stateA1).1 = 3 ∧
    (EKD.maxFlowClaimed EKD.graphA2 EKD.capA 0 3 EKD.stateA1).1 = 5 ∧
    (EKD.maxFlow EKD.graphA2 EKD.capA 0 3 EKD.stateA1).2.F.getD 0 0 = 1 ∧
    (EKD.maxFlowClaimed EKD.graphA2 EKD.capA 0 3 EKD.stateA1).2.F.getD 0 0
      = 3 := by
  decide

/-- C4 (amended): when incremental replay processes a deletion of edge `e`
with nonzero flow, reoriented to (u, v) so the flow `fv` is positive from
u to v, the engine first runs the residual max-flow from u to v bounded by
`fv`; if that recovers only `fv − delta` with `delta > 0` it runs the
shortcut-augmented max-flow from u to v whose shortcut arc goes from the
global source `s` to the global sink `t` (not from u to v) with capacity
`delta`, sets the edge's flow entry to 0 and marks `needsReflow`; and
whenever replay ends with `needsReflow` set (and no edges added), the call
returns the sum of F over enabled edges leaving `s`. -/
theorem C4_deletion_repair_structure :
    (∀ (g : EKD.DynGraph) (cap : List EKD.Weight) (s t edgeid : Nat)
      (acc : EKD.ReplayAcc) (u v : Nat) (fv' : EKD.Weight),
      g.edgeEnabled edgeid = false →
      acc.F.getD edgeid 0 ≠ 0 →
      u = (if acc.F.getD edgeid 0 < 0 then (g.edgesArr.getD edgeid ⟨0, 0⟩).dst
           else (g.edgesArr.getD edgeid ⟨0, 0⟩).src) →
      v = (if acc.F.getD edgeid 0 < 0 then (g.edgesArr.getD edgeid ⟨0, 0⟩).src
           else (g.edgesArr.getD edgeid ⟨0, 0⟩).dst) →
      fv' = (if acc.F.getD edgeid 0 < 0 then -(acc.F.getD edgeid 0)
             else acc.F.getD edgeid 0) →
      (EKD.maxFlowResidual g cap (acc.een.set edgeid false) u v fv'
          acc.F acc.prev acc.M).1 ≠ fv' →
      EKD.processEvent g cap s t acc (edgeid, false) =
        (let r := EKD.maxFlowResidual g cap (acc.een.set edgeid false) u v
            fv' acc.F acc.prev acc.M
         let r2 := EKD.maxFlowPSc g cap (acc.een.set edgeid false) u v s t
            (fv' - r.1) r.2.1 r.2.2.1 r.2.2.2
         { F := r2.2.1.set edgeid 0, prev := r2.2.2.1, M := r2.2.2.2,
           een := acc.een.set edgeid false, addedEdges := acc.addedEdges,
           needsReflow := true })) ∧
    (∀ (g : EKD.DynGraph) (cap : List EKD.Weight) (s t : Nat)
      (st : EKD.EKState) (acc : EKD.ReplayAcc),
      ¬(st.last_modification > 0 ∧ g.modifications = st.last_modification) →
      ¬(st.last_modification ≤ 0 ∨ g.historyclears ≠ st.last_history_clear
          ∨ g.changedFlag = true) →
      acc = (g.hist.drop st.history_qhead).foldl (EKD.processEvent g cap s t)
        { F := st.F, prev := st.prev, M := st.M, een := st.edge_enabled,
          addedEdges := false, needsReflow := false } →
      acc.needsReflow = true →
      acc.addedEdges = false →
      (EKD.maxFlow g cap s t st).1 = EKD.reflowSum g acc.een acc.F s) := by
  constructor
  · intro g cap s t edgeid acc u v fv' hdis hne hu hv hfv hpartial
    subst hu hv hfv
    rcases lt_or_le (acc.F.getD edgeid 0) 0 with hlt | hge
    · simp only [if_pos hlt] at hpartial ⊢
      rw [EKD.processEvent]
      simp only [hdis, Bool.false_eq_true, false_and, if_false,
        Bool.not_eq_true, not_false_eq_true, and_self, if_true, if_pos hlt,
        ite_true, ite_false, hne, reduceIte]
      rw [if_neg hpartial]
    · have hnlt : ¬(acc.F.getD edgeid 0 < 0) := not_lt.mpr hge
      simp only [if_neg hnlt] at hpartial ⊢
      rw [EKD.processEvent]
      simp only [hdis, Bool.false_eq_true, false_and, if_false,
        Bool.not_eq_true, not_false_eq_true, and_self, if_true, if_neg hnlt,
        ite_false, ite_true, hne, reduceIte]
      rw [if_neg hpartial]
  · intro g cap s t st acc h1 h2 hacc hnr hadd
    rw [EKD.maxFlow, if_neg h1]
    simp only [if_neg h2]
    rw [← hacc]
    simp only [hnr, hadd, if_true, Bool.false_eq_true, if_false]

/-- C4 witness: the deletion of edge 1→3 in flow scenario A instantiates
both parts of the amended claim; the residual recovery there is partial
(0 of 2 units), so the shortcut run and the reflow recount both happen. -/
theorem C4_deletion_repair_structure_witness :
    (EKD.processEvent EKD.graphA2 EKD.capA 0 3 EKD.accA0 (3, false) =
      (let r := EKD.maxFlowResidual EKD.graphA2 EKD.capA
          (EKD.accA0.een.set 3 false) 1 3 2 EKD.accA0.F EKD.accA0.prev
          EKD.accA0.M
       let r2 := EKD.maxFlowPSc EKD.graphA2 EKD.capA
          (EKD.accA0.een.set 3 false) 1 3 0 3 (2 - r.1) r.2.1 r.2.2.1 r.2.2.2
       { F := r2.2.1.set 3 0, prev := r2.2.2.1, M := r2.2.2.2,
         een := EKD.accA0.een.set 3 false, addedEdges := EKD.accA0.addedEdges,
         needsReflow := true })) ∧
    (EKD.maxFlow EKD.graphA2 EKD.capA 0 3 EKD.stateA1).1 =
      EKD.reflowSum EKD.graphA2 EKD.accA1.een EKD.accA1.F 0 :=
  ⟨C4_deletion_repair_structure.1 EKD.graphA2 EKD.capA 0 3 3 EKD.accA0 1 3 2
      (by decide) (by decide) (by decide) (by decide) (by decide) (by decide),
   C4_deletion_repair_structure.2 EKD.graphA2 EKD.capA 0 3 EKD.stateA1
      EKD.accA1 (by decide) (by decide) rfl (by decide) (by decide)⟩

/-- C9: the eligible-variable list is built only when empty (on the first
call, from the inclusion flags at that moment), is never rebuilt while
non-empty, and `excludeFromCover` changes only the inclusion vector; so
after any `excludeFromCover` call made once the list exists, a later
fast-mode `getCover` still iterates over the original list. -/
theorem C9_subset_frozen_after_first_call :
    (∀ (S : CoverM.Solver) (fast : Bool) (st : CoverM.CoverSt),
      st.subset = [] →
      (CoverM.getCover S fast st).1.subset =
        CoverM.buildSubset (CoverM.growTo st.incl S.nVars true)) ∧
    (∀ (st : CoverM.CoverSt) (v : Nat) (ex : Bool),
      (CoverM.excludeFromCover st v ex).subset = st.subset) ∧
    (∀ (S : CoverM.Solver) (fast : Bool) (st : CoverM.CoverSt),
      st.subset ≠ [] →
      (CoverM.getCover S fast st).1.subset = st.subset) ∧
    (∀ (S : CoverM.Solver) (st : CoverM.CoverSt) (v : Nat) (ex : Bool),
      st.subset ≠ [] →
      (CoverM.getCover S true (CoverM.excludeFromCover st v ex)).2 =
        (CoverM.fastLoop S
          (CoverM.growTo (CoverM.excludeFromCover st v ex).incl S.nVars true)
          st.subset
          (CoverM.passTrail S
            (CoverM.growTo (CoverM.excludeFromCover st v ex).incl S.nVars
              true))).2) := by
  refine ⟨?_, ?_, ?_, ?_⟩
  · intro S fast st h
    cases fast <;>
      simp [CoverM.getCover, h, List.isEmpty_iff]
  · intro st v ex
    rfl
  · intro S fast st h
    cases fast <;>
      simp [CoverM.getCover, List.isEmpty_iff, h]
  · intro S st v ex h
    have hsub : (CoverM.excludeFromCover st v ex).subset = st.subset := rfl
    simp [CoverM.getCover, List.isEmpty_iff, hsub, h]

/-- C9 witness: on cover scenario A, the first call builds the list
[0, 1, 2]; excluding variable 1 afterwards leaves the list unchanged, and
the next fast-mode call iterates over the original list. -/
theorem C9_subset_frozen_after_first_call_witness :
    (CoverM.getCover CoverM.solvA false CoverM.initCover).1.subset =
      CoverM.buildSubset
        (CoverM.growTo CoverM.initCover.incl CoverM.solvA.nVars true) ∧
    (CoverM.excludeFromCover
      (CoverM.getCover CoverM.solvA false CoverM.initCover).1 1 true).subset =
      (CoverM.getCover CoverM.solvA false CoverM.initCover).1.subset ∧
    (CoverM.getCover CoverM.solvA false
      (CoverM.getCover CoverM.solvA false CoverM.initCover).1).1.subset =
      (CoverM.getCover CoverM.solvA false CoverM.initCover).1.subset ∧
    (CoverM.getCover CoverM.solvA true
      (CoverM.excludeFromCover
        (CoverM.getCover CoverM.solvA false CoverM.initCover).1 1 true)).2 =
      (CoverM.fastLoop CoverM.solvA
        (CoverM.growTo
          (CoverM.excludeFromCover
            (CoverM.getCover CoverM.solvA false CoverM.initCover).1 1
            true).incl CoverM.solvA.nVars true)
        (CoverM.getCover CoverM.solvA false CoverM.initCover).1.subset
        (CoverM.passTrail CoverM.solvA
          (CoverM.growTo
            (CoverM.excludeFromCover
              (CoverM.getCover CoverM.solvA false CoverM.initCover).1 1
              true).incl CoverM.solvA.nVars true))).2 :=
  ⟨C9_subset_frozen_after_first_call.1 CoverM.solvA false CoverM.initCover
      (by decide),
   C9_subset_frozen_after_first_call.2.1 _ 1 true,
   C9_subset_frozen_after_first_call.2.2.1 CoverM.solvA false _ (by decide),
   C9_subset_frozen_after_first_call.2.2.2 CoverM.solvA _ 1 true (by decide)⟩

open CoverM in
/-- C7: corrected.  In exact mode, when every clause holds a true literal
under a duplicate-free clause database, all eligible variables are
assigned, clause variables are in range and the level-zero trail is
consistent, the returned cover satisfies the claimed property: every
clause holds either a true literal of an excluded variable or a literal
of the returned cover, and every returned literal is true with its
inclusion flag set.  (In fast mode, and in exact mode with duplicated
literals, the property fails; see the counterexample theorem.) -/
theorem C7_exact_cover_coverage_and_validity (S : Solver) (st : CoverSt)
    (hrange : ∀ c ∈ S.clauses, ∀ l ∈ c, l.v < S.nVars)
    (hnodup : ∀ c ∈ S.clauses, c.Nodup)
    (hassigned : ∀ v, v < S.nVars →
      (coverIncl S st).getD v true = true → S.assigns v ≠ LB.u)
    (htrail : ∀ l ∈ trailPref S, S.value l = LB.t ∧ l.v < S.nVars)
    (hsat : ∀ c ∈ S.clauses, ∃ l ∈ c, S.value l = LB.t) :
    (∀ c ∈ S.clauses,
      (∃ l ∈ c, S.value l = LB.t ∧
        (coverIncl S st).getD l.v true = false) ∨
      (∃ l ∈ c, l ∈ (getCover S false st).2)) ∧
    (∀ l ∈ (getCover S false st).2,
      S.value l = LB.t ∧ (coverIncl S st).getD l.v true = true) := by
  obtain ⟨hIcCov, hicl, hcl1, hp1cnt, hmark⟩ :=
    coverP1_facts S st hrange hassigned htrail
  obtain ⟨p1, p2, p3, p4, p5, p6, p7, p8⟩ :=
    coverP2_facts S st hrange hassigned htrail
  obtain ⟨hlr, hmem, hempty⟩ := coverLists_facts S st hrange hassigned htrail
  obtain ⟨K, m1, m2, m3, m4, m5, m6⟩ :=
    cover_exact_main S st hrange hassigned htrail hsat
  have hvalid : ∀ l ∈ (getCover S false st).2,
      S.value l = LB.t ∧ (coverIncl S st).getD l.v true = true := by
    intro l hl
    rw [m1] at hl
    rcases List.mem_append.mp hl with hl | hl
    · exact hIcCov.1 l hl
    · obtain ⟨j, hj, hju⟩ := p7 l (m2 l hl)
      have hspec := uncOf_mem_spec S (coverIncl S st) (coverP1 S st).ic
        (S.clauses.getD j []) l hju
      exact ⟨hspec.2.1, hspec.2.2.1⟩
  refine ⟨?_, hvalid⟩
  intro c hcm
  obtain ⟨i, hi, hieq⟩ := mem_getD_index S.clauses c [] hcm
  rw [← hieq]
  have hpos := m6 hnodup i hi
  have hacc := m3 i
  by_cases hF : ForcedCl S (coverIncl S st) (S.clauses.getD i [])
  · obtain ⟨hflmem, hflnf, hflincl⟩ :=
      forcedLit_mem S (coverIncl S st) (S.clauses.getD i []) hF
    have hflv : (forcedLit S (coverIncl S st) (S.clauses.getD i [])).v
        < S.nVars := hrange _ hcm _ (hieq ▸ hflmem)
    have hflt : S.value (forcedLit S (coverIncl S st)
        (S.clauses.getD i [])) = LB.t :=
      value_true_of_ne_f S _ (hassigned _ hflv hflincl) hflnf
    obtain ⟨m, hm, hmv⟩ := hIcCov.2.2 _ (hmark i hi hF)
    have hmeq : m = forcedLit S (coverIncl S st) (S.clauses.getD i []) :=
      value_true_unique S m _ ((hIcCov.1 m hm).1) hflt hmv
    refine Or.inr ⟨_, hflmem, ?_⟩
    rw [m1]
    exact List.mem_append_left _ (hmeq ▸ hm)
  · by_cases hS : SatCl S (coverIncl S st) (coverP1 S st).ic
        (S.clauses.getD i [])
    · obtain ⟨l, hlm, hlt, hdisj⟩ :=
        (scan2_none_iff S (coverIncl S st) (coverP1 S st).ic
          (S.clauses.getD i []) []).mp hS
      rcases hdisj with hni | hic
      · exact Or.inl ⟨l, hlm, hlt, Bool.eq_false_iff.mpr hni⟩
      · obtain ⟨m, hm, hmv⟩ := hIcCov.2.2 l.v hic
        have hmeq : m = l :=
          value_true_unique S m l ((hIcCov.1 m hm).1) hlt hmv
        refine Or.inr ⟨l, hlm, ?_⟩
        rw [m1]
        exact List.mem_append_left _ (hmeq ▸ hm)
    · have hFif : (if i < S.clauses.length ∧
          ForcedCl S (coverIncl S st) (S.clauses.getD i [])
          then (1 : Nat) else 0) = 0 := if_neg (fun hh => hF hh.2)
      have hSif : (if i < S.clauses.length ∧
          SatCl S (coverIncl S st) (coverP1 S st).ic (S.clauses.getD i [])
          then (1 : Nat) else 0) = 0 := if_neg (fun hh => hS hh.2)
      rw [hacc, hFif, hSif] at hpos
      have hsumne : sumCnt (coverP2 S st).lists K i ≠ 0 := by omega
      obtain ⟨kl, hkl, hklc⟩ := sumCnt_pos (coverP2 S st).lists K i hsumne
      obtain ⟨j, hj, hju⟩ := p7 kl (m2 kl hkl)
      have hklspec := uncOf_mem_spec S (coverIncl S st) (coverP1 S st).ic
        (S.clauses.getD j []) kl hju
      have hklv : kl.v < S.nVars :=
        hrange _ (getD_mem_of_lt _ _ _ hj) kl hklspec.1
      have hmemi : i ∈ (coverP2 S st).lists.getD kl.v [] := by
        by_contra hn
        exact hklc (List.count_eq_zero.mpr hn)
      obtain ⟨_, m, hmu, hmv⟩ := (hmem kl.v hklv i).mp hmemi
      have hmspec := uncOf_mem_spec S (coverIncl S st) (coverP1 S st).ic
        (S.clauses.getD i []) m hmu
      have hmeq : m = kl :=
        value_true_unique S m kl hmspec.2.1 hklspec.2.1 hmv
      refine Or.inr ⟨kl, hmeq ▸ hmspec.1, ?_⟩
      rw [m1]
      exact List.mem_append_right _ hkl

open CoverM in
/-- C7: witness of the corrected theorem at cover scenario A: the
preconditions hold there and the theorem yields coverage and validity of
the returned exact-mode cover. -/
theorem C7_exact_cover_coverage_and_validity_witness :
    (∀ c ∈ solvA.clauses, ∃ l ∈ c, solvA.value l = LB.t) ∧
    ((∀ c ∈ solvA.clauses,
      (∃ l ∈ c, solvA.value l = LB.t ∧
        (coverIncl solvA initCover).getD l.v true = false) ∨
      (∃ l ∈ c, l ∈ (getCover solvA false initCover).2)) ∧
    (∀ l ∈ (getCover solvA false initCover).2,
      solvA.value l = LB.t ∧
        (coverIncl solvA initCover).getD l.v true = true)) :=
  ⟨by decide,
    C7_exact_cover_coverage_and_validity solvA initCover (by decide)
      (by decide) (by decide) (by decide) (by decide)⟩

open CoverM in
/-- C7: counterexample.  The claimed coverage fails on the code as
written in two ways, with all of the claim's preconditions satisfied.
In fast mode (instance `solvFast`, variables 0 and 1 excluded while
unassigned), the clause (x0 ∨ x1 ∨ x2) has no true excluded literal yet
none of its literals reaches the returned cover, because both watchers
belong to excluded unassigned variables.  In exact mode, the single
clause (x0 ∨ x0) with a duplicated literal is counted twice during the
greedy pass, so the essentiality pruning drops x0 and returns an empty
cover. -/
theorem C7_coverage_counterexamples :
    ((∀ c ∈ solvFast.clauses, ∃ l ∈ c, solvFast.value l = LB.t) ∧
     (∀ v < solvFast.nVars,
        (coverIncl solvFast cstFast).getD v true = true →
        solvFast.assigns v ≠ LB.u) ∧
     (∃ c ∈ solvFast.clauses,
       (∀ l ∈ c, ¬(solvFast.value l = LB.t ∧
         (coverIncl solvFast cstFast).getD l.v true = false)) ∧
       (∀ l ∈ c, l ∉ (getCover solvFast true cstFast).2))) ∧
    ((∀ c ∈ solvDup.clauses, ∃ l ∈ c, solvDup.value l = LB.t) ∧
     (∀ v < solvDup.nVars,
        (coverIncl solvDup initCover).getD v true = true →
        solvDup.assigns v ≠ LB.u) ∧
     (∃ c ∈ solvDup.clauses,
       (∀ l ∈ c, ¬(solvDup.value l = LB.t ∧
         (coverIncl solvDup initCover).getD l.v true = false)) ∧
       (∀ l ∈ c, l ∉ (getCover solvDup false initCover).2))) := by
  decide

open CoverM in
/-- C8: confirmed.  In exact mode, under the claim's preconditions,
every returned literal whose per-variable clause-index list is nonempty
(that is, every literal not inherited from the trail or forced passes)
is essential: some clause contains it, contains no true literal of an
excluded variable, and contains no other literal of the returned
cover — removing the literal leaves that clause uncovered. -/
theorem C8_exact_cover_local_minimality (S : Solver) (st : CoverSt)
    (hrange : ∀ c ∈ S.clauses, ∀ l ∈ c, l.v < S.nVars)
    (hassigned : ∀ v, v < S.nVars →
      (coverIncl S st).getD v true = true → S.assigns v ≠ LB.u)
    (htrail : ∀ l ∈ trailPref S, S.value l = LB.t ∧ l.v < S.nVars)
    (hsat : ∀ c ∈ S.clauses, ∃ l ∈ c, S.value l = LB.t) :
    ∀ l ∈ (getCover S false st).2, (coverLists S st).getD l.v [] ≠ [] →
      ∃ cIdx < S.clauses.length,
        l ∈ S.clauses.getD cIdx [] ∧
        (∀ m ∈ S.clauses.getD cIdx [], ¬(S.value m = LB.t ∧
          (coverIncl S st).getD m.v true = false)) ∧
        (∀ m ∈ (getCover S false st).2,
          m ∈ S.clauses.getD cIdx [] → m = l) := by
  obtain ⟨hIcCov, hicl, hcl1, hp1cnt, hmark⟩ :=
    coverP1_facts S st hrange hassigned htrail
  obtain ⟨p1, p2, p3, p4, p5, p6, p7, p8⟩ :=
    coverP2_facts S st hrange hassigned htrail
  obtain ⟨hlr, hmem, hempty⟩ := coverLists_facts S st hrange hassigned htrail
  obtain ⟨K, m1, m2, m3, m4, m5, m6⟩ :=
    cover_exact_main S st hrange hassigned htrail hsat
  intro l hl hne
  have hlK : l ∈ K := by
    rw [m1] at hl
    rcases List.mem_append.mp hl with h | h
    · exact absurd (hempty l.v (hIcCov.2.1 l h)) hne
    · exact h
  obtain ⟨cIdx, hcmem, hcnt1⟩ := m4 l hlK
  have hci : cIdx < S.clauses.length := hlr l.v cIdx hcmem
  obtain ⟨j, hj, hju⟩ := p7 l (m2 l hlK)
  have hlspec := uncOf_mem_spec S (coverIncl S st) (coverP1 S st).ic
    (S.clauses.getD j []) l hju
  have hlv : l.v < S.nVars :=
    hrange _ (getD_mem_of_lt _ _ _ hj) l hlspec.1
  have hacc := m3 cIdx
  rw [hcnt1] at hacc
  have hsuml : 1 ≤ sumCnt (coverP2 S st).lists K cIdx := by
    have h1 : 0 < ((coverP2 S st).lists.getD l.v []).count cIdx :=
      List.count_pos_iff.mpr hcmem
    have h2 := sumCnt_ge_of_mem (coverP2 S st).lists K l cIdx hlK
    omega
  have hS : ¬SatCl S (coverIncl S st) (coverP1 S st).ic
      (S.clauses.getD cIdx []) := by
    intro hS0
    have hSif : (if cIdx < S.clauses.length ∧
        SatCl S (coverIncl S st) (coverP1 S st).ic (S.clauses.getD cIdx [])
        then (1 : Nat) else 0) = 1 := if_pos ⟨hci, hS0⟩
    rw [hSif] at hacc
    omega
  have hSif : (if cIdx < S.clauses.length ∧
      SatCl S (coverIncl S st) (coverP1 S st).ic (S.clauses.getD cIdx [])
      then (1 : Nat) else 0) = 0 := if_neg (fun hh => hS hh.2)
  rw [hSif] at hacc
  have hsum1 : sumCnt (coverP2 S st).lists K cIdx = 1 := by omega
  obtain ⟨huo, hnex⟩ := uncOf_not_sat S (coverIncl S st) (coverP1 S st).ic
    (S.clauses.getD cIdx []) hS
  have hlmemcl : l ∈ S.clauses.getD cIdx [] := by
    obtain ⟨_, m, hmu, hmv⟩ := (hmem l.v hlv cIdx).mp hcmem
    have hmspec := uncOf_mem_spec S (coverIncl S st) (coverP1 S st).ic
      (S.clauses.getD cIdx []) m hmu
    have hmeq : m = l :=
      value_true_unique S m l hmspec.2.1 hlspec.2.1 hmv
    exact hmeq ▸ hmspec.1
  refine ⟨cIdx, hci, hlmemcl, ?_, ?_⟩
  · rintro m hm ⟨hmt, hmf⟩
    have := (hnex m hm hmt).1
    rw [this] at hmf
    exact absurd hmf (by decide)
  · intro m hmcov hmc
    rw [m1] at hmcov
    rcases List.mem_append.mp hmcov with hmp | hmK
    · exfalso
      have hmt : S.value m = LB.t := (hIcCov.1 m hmp).1
      have hicm : (coverP1 S st).ic.getD m.v false = true :=
        hIcCov.2.1 m hmp
      have := (hnex m hmc hmt).2
      rw [this] at hicm
      exact Bool.false_ne_true hicm
    · by_contra hne2
      obtain ⟨j2, hj2, hju2⟩ := p7 m (m2 m hmK)
      have hmspec := uncOf_mem_spec S (coverIncl S st) (coverP1 S st).ic
        (S.clauses.getD j2 []) m hju2
      have hmv : m.v < S.nVars :=
        hrange _ (getD_mem_of_lt _ _ _ hj2) m hmspec.1
      have hmunc : m ∈ uncOf S (coverIncl S st) (coverP1 S st).ic
          (S.clauses.getD cIdx []) := by
        rw [huo]
        exact (mem_trueLits S _ m).mpr ⟨hmc, hmspec.2.1⟩
      have hmcnt : cIdx ∈ (coverP2 S st).lists.getD m.v [] :=
        (hmem m.v hmv cIdx).mpr ⟨hci, m, hmunc, rfl⟩
      have hcl : 0 < ((coverP2 S st).lists.getD l.v []).count cIdx :=
        List.count_pos_iff.mpr hcmem
      have hcm2 : 0 < ((coverP2 S st).lists.getD m.v []).count cIdx :=
        List.count_pos_iff.mpr hmcnt
      have hpair := sumCnt_ge_of_mem_pair (coverP2 S st).lists K l m cIdx
        hlK hmK (fun h => hne2 h.symm)
      omega

open CoverM in
/-- C8: witness.  On the two-clause instance (x0 ∨ x1), (x0 ∨ x2) with
every variable true and included, the preconditions hold; the returned
cover is the single greedy literal x0, its clause list is nonempty, and
the theorem produces its essential clause. -/
theorem C8_exact_cover_local_minimality_witness :
    (∀ c ∈ solvW.clauses, ∃ l ∈ c, solvW.value l = LB.t) ∧
    (⟨0, false⟩ : Lit) ∈ (getCover solvW false initCover).2 ∧
    (coverLists solvW initCover).getD 0 [] ≠ [] ∧
    (∃ cIdx < solvW.clauses.length,
      (⟨0, false⟩ : Lit) ∈ solvW.clauses.getD cIdx [] ∧
      (∀ m ∈ solvW.clauses.getD cIdx [], ¬(solvW.value m = LB.t ∧
        (coverIncl solvW initCover).getD m.v true = false)) ∧
      (∀ m ∈ (getCover solvW false initCover).2,
        m ∈ solvW.clauses.getD cIdx [] → m = ⟨0, false⟩)) :=
  ⟨by decide, by decide, by decide,
    C8_exact_cover_local_minimality solvW initCover (by decide) (by decide)
      (by decide) (by decide) ⟨0, false⟩ (by decide) (by decide)⟩
